import Mathlib

/-!
Verification of the fixed-depth content-addressed Merkle tree
(`src/merkle_tree.ts`, two variants of the `MerkleTree` class).

Byte buffers are modelled as `List Nat`, the leveldb store as a function
from keys to optional values, and each class method as a pure function
that threads the store state explicitly and returns `none` where the
source throws.  The sha256 hasher lives outside `src/`, so following the
spec it is modelled as an abstract function `hash : Bytes → Bytes`
(sha256 idealized: 32-byte output, collision-free on the 64-byte inputs
used for node compression), with `compress l r = hash (l ++ r)`.
-/

/-- A byte buffer (`Buffer`): a list of byte values. -/
abbrev Bytes := List Nat

/-- The leveldb store: a mapping from byte keys to byte values. -/
abbrev Store := Bytes → Option Bytes

/-- `db.put(k, v)`: overwrite the entry at key `k`. -/
def Store.put (s : Store) (k v : Bytes) : Store :=
  fun k' => if k' = k then some v else s k'

/-- Apply a list of `put`s in order (later entries win). -/
def putList (s : Store) (l : List (Bytes × Bytes)) : Store :=
  l.foldl (fun st e => st.put e.1 e.2) s

/-- The empty store. -/
def emptyStore : Store := fun _ => none

/-- `src.copy(dst, off)` for Node buffers: copy
`min (src.length) (dst.length - off)` bytes of `src` into `dst` at
offset `off`, leaving the rest of `dst` unchanged. -/
def copyAt (src dst : Bytes) (off : Nat) : Bytes :=
  dst.take off ++ src.take (min src.length (dst.length - off)) ++
    dst.drop (off + min src.length (dst.length - off))

/-- In-bounds exact overwrite at an offset (used for `writeUInt32LE`). -/
def writeAt (dst : Bytes) (off : Nat) (src : Bytes) : Bytes :=
  dst.take off ++ src ++ dst.drop (off + src.length)

/-- The 4 little-endian bytes of a 32-bit value (`writeUInt32LE`). -/
def le4 (n : Nat) : Bytes :=
  [n % 256, n / 256 % 256, n / 65536 % 256, n / 16777216 % 256]

/-- `buf.readUInt32LE(off)`. -/
def readLE32 (b : Bytes) (off : Nat) : Nat :=
  b.getD off 0 + 256 * b.getD (off + 1) 0 + 65536 * b.getD (off + 2) 0 +
    16777216 * b.getD (off + 3) 0

/-- `buf.slice(0, 32)`. -/
def slice0 (v : Bytes) : Bytes := v.take 32

/-- `buf.slice(32, 64)`. -/
def slice1 (v : Bytes) : Bytes := (v.drop 32).take 32

/-- Modelled from the spec: the `Sha256Hasher` module of the repository is
not under `src/`; per the spec it provides `hash(bytes) → 32-byte digest`
(sha256), kept abstract here. -/
structure Hasher where
  hash : Bytes → Bytes

/-- Modelled from the spec: `compress(left, right) = hash(left || right)`
(spec section 4.1), the only fact about `Sha256Hasher.compress` the
algorithms rely on. -/
def compress (H : Hasher) (l r : Bytes) : Bytes := H.hash (l ++ r)

/-- The idealization of sha256 used throughout: digests are 32 bytes and
there are no collisions among the 64-byte node payloads. -/
def GoodHasher (H : Hasher) : Prop :=
  (∀ b, (H.hash b).length = 32) ∧
  (∀ a b, a.length = 64 → b.length = 64 → H.hash a = H.hash b → a = b)

/-- The in-memory state of a `MerkleTree` instance: its `root` digest and
its `depth` (the `db` and `name` fields are passed to each operation). -/
structure MTree where
  root : Bytes
  depth : Nat
deriving DecidableEq

/-- `getRoot()`. -/
def getRoot (t : MTree) : Bytes := t.root

/-- `(index >> r) & 1`, the branch-selection bit used by both traversals
(`shouldGoRight` with `r = this.depth - depth - 1`). -/
def bitAt (index r : Nat) : Nat := (index >>> r) &&& 1

/-- `writeMetaData()`: a 40-byte buffer holding the root at offset 0 and
the depth as `writeUInt32LE` at offset 32. -/
def metaBytes (root : Bytes) (depth : Nat) : Bytes :=
  writeAt (copyAt root (List.replicate 40 0) 0) 32 (le4 depth)

/-- Spec-side digest-per-level recurrence (spec section 4.2):
`specD H 0 = hash(zero_64_bytes)` is the leaf digest and
`specD H (j+1) = compress(specD H j, specD H j)` is the digest `j + 1`
levels above the leaves; the root of a fresh depth-`d` tree is
`specD H d`. -/
def specD (H : Hasher) : Nat → Bytes
  | 0 => H.hash (List.replicate 64 0)
  | j + 1 => compress H (specD H j) (specD H j)

/-- Variant 1 constructor loop (`merkle_tree.ts` lines 36-64), after `j+1`
iterations (levels `depth` down to `depth - j`): the partial
`hashPerLevel` array as a function and the `db.put` log in order.  The
missing-hash check of line 46 is modelled by `Option`.  Only meaningful
for `j ≤ depth` (the loop runs `i = depth, …, 0`). -/
def initLoop1 (H : Hasher) (depth : Nat) : Nat → Option ((Nat → Option Bytes) × List (Bytes × Bytes))
  | 0 =>
    some (fun i => if i = depth then some (H.hash (List.replicate 64 0)) else none, [])
  | j + 1 =>
    (initLoop1 H depth j).bind fun st =>
      (st.1 (depth - j)).map fun child =>
        (fun i => if i = depth - (j + 1) then some (compress H child child) else st.1 i,
         st.2 ++ [(compress H child child,
                   copyAt child (copyAt child (List.replicate 64 0) 0) 32)])

/-- Variant 1 constructor (lines 26-68): depth guard, then either restore
(`root.copy(this.root)`) or the fresh-initialization loop followed by
`hashPerLevel[0].copy(this.root)`.  Returns the root and the node-put
log; `none` models a thrown error (the store is not touched then). -/
def ctor1 (H : Hasher) (depth : Nat) (rootGiven : Option Bytes) : Option (Bytes × List (Bytes × Bytes)) :=
  if 1 ≤ depth ∧ depth ≤ 32 then
    match rootGiven with
    | some rt => some (copyAt rt (List.replicate 32 0) 0, [])
    | none =>
      (initLoop1 H depth depth).bind fun st =>
        (st.1 0).map fun h0 => (copyAt h0 (List.replicate 32 0) 0, st.2)
  else none

/-- Variant 2 constructor loop (second file, lines 221-236): identical
level recurrence, with `Buffer.concat([nodes[i+1], nodes[i+1]])` as the
stored payload. -/
def initLoop2 (H : Hasher) (depth : Nat) : Nat → Option ((Nat → Option Bytes) × List (Bytes × Bytes))
  | 0 =>
    some (fun i => if i = depth then some (H.hash (List.replicate 64 0)) else none, [])
  | j + 1 =>
    (initLoop2 H depth j).bind fun st =>
      (st.1 (depth - j)).map fun child =>
        (fun i => if i = depth - (j + 1) then some (compress H child child) else st.1 i,
         st.2 ++ [(compress H child child, child ++ child)])

/-- Variant 2 constructor (second file, lines 205-242): depth guard, then
either `this.root = root` or the loop, a `writeMetaData()` call issued
while `this.root` is still the zero-initialized buffer, and finally
`this.root = nodes[0]`.  Returns root, node-put log and metadata-put
log. -/
def ctor2 (H : Hasher) (name : Bytes) (depth : Nat) (rootGiven : Option Bytes) :
    Option (Bytes × List (Bytes × Bytes) × List (Bytes × Bytes)) :=
  if 1 ≤ depth ∧ depth ≤ 32 then
    match rootGiven with
    | some rt => some (rt, [], [])
    | none =>
      (initLoop2 H depth depth).bind fun st =>
        (st.1 0).map fun h0 =>
          (h0, st.2, [(name, metaBytes (List.replicate 32 0) depth)])
  else none

/-- Variant 1 `MerkleTree.new` (lines 74-85).  Returns the tree state, the
store after all writes, the node-put log and the get log (`db.get` is
issued once, on the name). -/
def new1 (H : Hasher) (s : Store) (name : Bytes) (depth : Nat) :
    Option (MTree × Store × List (Bytes × Bytes) × List Bytes) :=
  match s name with
  | some meta =>
    (ctor1 H (readLE32 meta 32) (some (meta.take 32))).map fun st =>
      (⟨st.1, readLE32 meta 32⟩, putList s st.2, st.2, [name])
  | none =>
    (ctor1 H depth none).map fun st =>
      (⟨st.1, depth⟩, (putList s st.2).put name (metaBytes st.1 depth), st.2, [name])

/-- Variant 2 `MerkleTree.new` (second file, lines 248-262): identical
control flow; in the fresh branch the constructor itself already wrote a
(zero-rooted) metadata record, then `writeMetaData()` overwrites it. -/
def new2 (H : Hasher) (s : Store) (name : Bytes) (depth : Nat) :
    Option (MTree × Store × List (Bytes × Bytes) × List Bytes) :=
  match s name with
  | some meta =>
    (ctor2 H name (readLE32 meta 32) (some (meta.take 32))).map fun st =>
      (⟨st.1, readLE32 meta 32⟩, putList s st.2.1, st.2.1, [name])
  | none =>
    (ctor2 H name depth none).map fun st =>
      (⟨st.1, depth⟩,
       (putList (putList s st.2.1) st.2.2).put name (metaBytes st.1 depth),
       st.2.1, [name])

/-- Variant 1 `getHashPathRecursively` (lines 111-134), phrased over the
remaining depth `r = this.depth - depth`; a `db.get` miss is `none`, and
`r = 0` (unreachable when the tree depth is ≥ 1) models the unguarded
fall-through of the source. -/
def getPathRec1 (s : Store) (index : Nat) : Bytes → Nat → Option (List (Bytes × Bytes))
  | _, 0 => none
  | cur, r + 1 =>
    (s cur).bind fun v =>
      if r = 0 then some [(slice0 v, slice1 v)]
      else
        (getPathRec1 s index (if bitAt index r = 1 then slice1 v else slice0 v) r).map
          fun acc => acc ++ [(slice0 v, slice1 v)]

/-- Variant 2 `getHashPathRecursive` (second file, lines 289-309): returns
at the leaf level and pushes each `[left, right]` after the recursive
call returns. -/
def getPathRec2 (s : Store) (index : Nat) : Bytes → Nat → Option (List (Bytes × Bytes))
  | _, 0 => some []
  | cur, r + 1 =>
    (s cur).bind fun v =>
      (getPathRec2 s index (if bitAt index r = 1 then slice1 v else slice0 v) r).map
        fun acc => acc ++ [(slice0 v, slice1 v)]

/-- Variant 1 path recursion with the store state threaded through every
step, witnessing that the method never issues a `db.put`. -/
def getPathRecSt1 (s : Store) (index : Nat) : Bytes → Nat → Option (List (Bytes × Bytes)) × Store
  | _, 0 => (none, s)
  | cur, r + 1 =>
    match s cur with
    | none => (none, s)
    | some v =>
      if r = 0 then (some [(slice0 v, slice1 v)], s)
      else
        match getPathRecSt1 s index (if bitAt index r = 1 then slice1 v else slice0 v) r with
        | (acc, s₁) => (acc.map fun a => a ++ [(slice0 v, slice1 v)], s₁)

/-- Variant 2 path recursion with the store state threaded through. -/
def getPathRecSt2 (s : Store) (index : Nat) : Bytes → Nat → Option (List (Bytes × Bytes)) × Store
  | _, 0 => (some [], s)
  | cur, r + 1 =>
    match s cur with
    | none => (none, s)
    | some v =>
      match getPathRecSt2 s index (if bitAt index r = 1 then slice1 v else slice0 v) r with
      | (acc, s₁) => (acc.map fun a => a ++ [(slice0 v, slice1 v)], s₁)

/-- Variant 1 `getHashPath(index)` on a tree state. -/
def getHashPath1 (s : Store) (t : MTree) (index : Nat) : Option (List (Bytes × Bytes)) :=
  getPathRec1 s index t.root t.depth

/-- Variant 2 `getHashPath(index)` on a tree state. -/
def getHashPath2 (s : Store) (t : MTree) (index : Nat) : Option (List (Bytes × Bytes)) :=
  getPathRec2 s index t.root t.depth

/-- Variant 1 `updateRecursively` (lines 143-171) over the remaining depth
`r`: at the leaf return `hash(value)`; otherwise read the node, recurse
on the selected child, rebuild the 64-byte payload with two `copy`s, put
it, and return the compressed digest.  All `db.get`s read the pre-update
store (the source performs every get on the way down and every put on
the way back up); the returned store and log carry the puts,
deepest-first. -/
def updateRec1 (H : Hasher) (s : Store) (index : Nat) (value : Bytes) :
    Bytes → Nat → Option (Bytes × Store × List (Bytes × Bytes))
  | _, 0 => some (H.hash value, s, [])
  | cur, r + 1 =>
    (s cur).bind fun v =>
      if bitAt index r = 1 then
        (updateRec1 H s index value (slice1 v) r).map fun st =>
          let nb := copyAt st.1 (copyAt (slice0 v) (List.replicate 64 0) 0) 32
          (compress H (slice0 v) st.1,
           (st.2.1.put (compress H (slice0 v) st.1) nb),
           st.2.2 ++ [(compress H (slice0 v) st.1, nb)])
      else
        (updateRec1 H s index value (slice0 v) r).map fun st =>
          let nb := copyAt (slice1 v) (copyAt st.1 (List.replicate 64 0) 0) 32
          (compress H st.1 (slice1 v),
           (st.2.1.put (compress H st.1 (slice1 v)) nb),
           st.2.2 ++ [(compress H st.1 (slice1 v), nb)])

/-- Variant 1 `updateElement(index, value)` (lines 142-178): run the
recursion from the root, copy the result into `this.root`, persist the
metadata record, and return the new root together with the new tree
state, the final store, and the node-put log. -/
def updateElement1 (H : Hasher) (s : Store) (name : Bytes) (t : MTree) (index : Nat) (value : Bytes) :
    Option (Bytes × MTree × Store × List (Bytes × Bytes)) :=
  (updateRec1 H s index value t.root t.depth).map fun st =>
    let root' := copyAt st.1 t.root 0
    (root', ⟨root', t.depth⟩, st.2.1.put name (metaBytes root' t.depth), st.2.2)

/-- Run a sequence of `updateElement` calls (variant 1) left to right. -/
def runUpdates (H : Hasher) (name : Bytes) : MTree × Store → List (Nat × Bytes) → Option (MTree × Store)
  | st, [] => some st
  | st, u :: us =>
    (updateElement1 H st.2 name st.1 u.1 u.2).bind fun r => runUpdates H name (r.2.1, r.2.2.1) us

/-- A fully constructed (sub)tree of height `r` rooted at digest `cur`:
every node entry along it exists, is 64 bytes, is content-addressed
(`key = compress(value[0:32], value[32:64])`), and both children are
themselves fully constructed. -/
def validT (H : Hasher) (s : Store) : Bytes → Nat → Bool
  | _, 0 => true
  | cur, r + 1 =>
    match s cur with
    | none => false
    | some v =>
      decide (v.length = 64) && decide (cur = compress H (slice0 v) (slice1 v)) &&
        validT H s (slice0 v) r && validT H s (slice1 v) r

/-- A put is content-addressed: 64-byte payload whose key is the
compression of its two halves. -/
def CAput (H : Hasher) (e : Bytes × Bytes) : Prop :=
  e.2.length = 64 ∧ e.1 = compress H (slice0 e.2) (slice1 e.2)

/-- Claim-side proof verifier: walk a hash path leaf-to-root from a leaf
digest, at step `m` checking that the slot selected by bit `m` of the
index holds the current digest and compressing the pair to obtain the
next digest; returns the final digest. -/
def verifyUp (H : Hasher) (index : Nat) : Bytes → List (Bytes × Bytes) → Nat → Option Bytes
  | cur, [], _ => some cur
  | cur, p :: rest, m =>
    if (if bitAt index m = 1 then p.2 else p.1) = cur then
      verifyUp H index (compress H p.1 p.2) rest (m + 1) else none

/-- Claim-side route: the digest of the node visited at level `k` on the
root-to-leaf walk for `index` in a depth-`depth` tree, descending right
when bit `depth - k - 1` of the index is set. -/
def visitNode (s : Store) (index depth : Nat) (root : Bytes) : Nat → Option Bytes
  | 0 => some root
  | k + 1 =>
    (visitNode s index depth root k).bind fun nd =>
      (s nd).map fun v => if bitAt index (depth - k - 1) = 1 then slice1 v else slice0 v

/-- Claim-side: the `(left, right)` children pair of the node visited at
level `k`. -/
def childrenAt (s : Store) (index depth : Nat) (root : Bytes) (k : Nat) : Option (Bytes × Bytes) :=
  (visitNode s index depth root k).bind fun nd => (s nd).map fun v => (slice0 v, slice1 v)

/-- Pair up adjacent elements with the Cantor pairing function. -/
def pairUp : List Nat → List Nat
  | [] => []
  | [a] => [Nat.pair a 0]
  | a :: b :: t => Nat.pair a b :: pairUp t

/-- A concrete executable hasher used to instantiate the abstract sha256
model in witnesses: 32-byte output, injective on 64-byte inputs. -/
def toyHash (b : Bytes) : Bytes := (pairUp b ++ List.replicate 32 0).take 32

/-- The concrete witness hasher. -/
def toyHasher : Hasher := ⟨toyHash⟩

/-! ## Store and buffer lemmas -/

theorem Store.put_same (s : Store) (k v : Bytes) : (s.put k v) k = some v := by
  simp [Store.put]

theorem Store.put_other (s : Store) (k v k' : Bytes) (h : k' ≠ k) :
    (s.put k v) k' = s k' := by
  simp [Store.put, h]

theorem putList_append (s : Store) (l₁ l₂ : List (Bytes × Bytes)) :
    putList s (l₁ ++ l₂) = putList (putList s l₁) l₂ := by
  simp [putList, List.foldl_append]

theorem putList_no_match (s : Store) (l : List (Bytes × Bytes)) (k : Bytes)
    (h : ∀ e ∈ l, e.1 ≠ k) : putList s l k = s k := by
  induction l generalizing s with
  | nil => rfl
  | cons e t ih =>
    rw [putList, List.foldl_cons, ← putList]
    rw [ih _ fun e' he' => h e' (List.mem_cons_of_mem _ he')]
    exact Store.put_other _ _ _ _ fun hk => h e (List.mem_cons_self _ _) hk.symm

theorem putList_consistent (s : Store) (l : List (Bytes × Bytes)) (k v : Bytes)
    (hmem : (∃ e ∈ l, e.1 = k) ∨ s k = some v)
    (hval : ∀ e ∈ l, e.1 = k → e.2 = v) : putList s l k = some v := by
  induction l generalizing s with
  | nil =>
    rcases hmem with ⟨e, he, _⟩ | h
    · exact absurd he (List.not_mem_nil e)
    · exact h
  | cons e t ih =>
    rw [putList, List.foldl_cons, ← putList]
    by_cases hk : e.1 = k
    · refine ih _ ?_ fun e' he' => hval e' (List.mem_cons_of_mem _ he')
      right
      rw [← hk, Store.put_same, hval e (List.mem_cons_self _ _) hk]
    · refine ih _ ?_ fun e' he' => hval e' (List.mem_cons_of_mem _ he')
      rcases hmem with ⟨e', he', hk'⟩ | h
      · rcases List.mem_cons.mp he' with rfl | he'
        · exact absurd hk' hk
        · exact Or.inl ⟨e', he', hk'⟩
      · right
        rw [Store.put_other _ _ _ _ (fun h' => hk (h'.symm))]
        exact h

theorem slice0_length {v : Bytes} (h : v.length = 64) : (slice0 v).length = 32 := by
  simp [slice0, h]

theorem slice1_length {v : Bytes} (h : v.length = 64) : (slice1 v).length = 32 := by
  simp [slice1, h]

theorem slice_recomb {v : Bytes} (h : v.length = 64) : slice0 v ++ slice1 v = v := by
  have h1 : (v.drop 32).take 32 = v.drop 32 := by
    apply List.take_of_length_le
    simp [h]
  rw [slice0, slice1, h1, List.take_append_drop]

theorem slice0_append {a b : Bytes} (ha : a.length = 32) : slice0 (a ++ b) = a := by
  simp [slice0, ← ha, List.take_left]

theorem slice1_append {a b : Bytes} (ha : a.length = 32) (hb : b.length = 32) :
    slice1 (a ++ b) = b := by
  have : (a ++ b).drop 32 = b := by
    rw [← ha]
    exact List.drop_left a b
  rw [slice1, this]
  exact List.take_of_length_le (by omega)

theorem copyAt_concat {src dst : Bytes} {off : Nat} (h : off + src.length ≤ dst.length) :
    copyAt src dst off = dst.take off ++ src ++ dst.drop (off + src.length) := by
  have hmin : min src.length (dst.length - off) = src.length := by omega
  rw [copyAt, hmin, List.take_of_length_le (le_refl _)]

theorem copyAt_full {src : Bytes} {n : Nat} (h : src.length = n) :
    copyAt src (List.replicate n 0) 0 = src := by
  rw [copyAt_concat (by simp [h]), h, List.take_zero, List.nil_append, Nat.zero_add,
    List.drop_replicate, Nat.sub_self, List.replicate_zero, List.append_nil]

theorem copyAt_pair {a b : Bytes} (ha : a.length = 32) (hb : b.length = 32) :
    copyAt b (copyAt a (List.replicate 64 0) 0) 32 = a ++ b := by
  have h1 : copyAt a (List.replicate 64 0) 0 = a ++ List.replicate 32 0 := by
    rw [copyAt_concat (by simp [ha]), ha, List.take_zero, List.nil_append, Nat.zero_add,
      List.drop_replicate]
  rw [h1, copyAt_concat (by simp [ha, hb]), hb]
  have h2 : (a ++ List.replicate 32 (0 : Nat)).take 32 = a := by
    rw [← ha]; exact List.take_left a _
  have h3 : (a ++ List.replicate 32 (0 : Nat)).drop (32 + 32) = [] := by
    apply List.drop_eq_nil_of_le
    simp [ha]
  rw [h2, h3, List.append_nil]

theorem metaBytes_eq {root : Bytes} (h : root.length = 32) (d : Nat) :
    metaBytes root d = root ++ le4 d ++ List.replicate 4 0 := by
  have h1 : copyAt root (List.replicate 40 0) 0 = root ++ List.replicate 8 0 := by
    rw [copyAt_concat (by simp [h]), h, List.take_zero, List.nil_append, Nat.zero_add,
      List.drop_replicate]
  rw [metaBytes, h1, writeAt]
  have h2 : (root ++ List.replicate 8 (0 : Nat)).take 32 = root := by
    rw [← h]; exact List.take_left root _
  have h3 : (root ++ List.replicate 8 (0 : Nat)).drop (32 + (le4 d).length) =
      List.replicate 4 0 := by
    have h4 : (le4 d).length = 4 := rfl
    have h5 : (32 : Nat) + (le4 d).length = root.length + 4 := by rw [h4, h]
    rw [h5, List.drop_append]
    rfl
  rw [h2, h3, List.append_assoc]

theorem metaBytes_take {root : Bytes} (h : root.length = 32) (d : Nat) :
    (metaBytes root d).take 32 = root := by
  rw [metaBytes_eq h, List.append_assoc, ← h, List.take_left]

theorem compress_length {H : Hasher} (hg : GoodHasher H) (l r : Bytes) :
    (compress H l r).length = 32 := hg.1 _

theorem compress_inj {H : Hasher} (hg : GoodHasher H) {a b c d : Bytes}
    (ha : a.length = 32) (hb : b.length = 32) (hc : c.length = 32) (hd : d.length = 32)
    (h : compress H a b = compress H c d) : a = c ∧ b = d := by
  have h64 : (a ++ b).length = 64 := by simp [ha, hb]
  have h64' : (c ++ d).length = 64 := by simp [hc, hd]
  have heq := hg.2 _ _ h64 h64' h
  exact List.append_inj heq (by omega)

theorem specD_length {H : Hasher} (hg : GoodHasher H) (j : Nat) :
    (specD H j).length = 32 := by
  cases j <;> exact hg.1 _

theorem validT_succ {H : Hasher} {s : Store} {cur : Bytes} {r : Nat} :
    validT H s cur (r + 1) = true ↔
      ∃ v, s cur = some v ∧ v.length = 64 ∧ cur = compress H (slice0 v) (slice1 v) ∧
        validT H s (slice0 v) r = true ∧ validT H s (slice1 v) r = true := by
  rw [validT]
  cases hv : s cur with
  | none => simp
  | some v =>
    simp only [Bool.and_eq_true, decide_eq_true_eq, Option.some.injEq]
    constructor
    · rintro ⟨⟨⟨h1, h2⟩, h3⟩, h4⟩
      exact ⟨v, rfl, h1, h2, h3, h4⟩
    · rintro ⟨v', hv', h1, h2, h3, h4⟩
      cases hv'
      exact ⟨⟨⟨h1, h2⟩, h3⟩, h4⟩

theorem validT_key_length {H : Hasher} {s : Store} {cur : Bytes} {r : Nat}
    (hg : GoodHasher H) (h : validT H s cur (r + 1) = true) : cur.length = 32 := by
  obtain ⟨v, _, _, h2, _, _⟩ := validT_succ.mp h
  rw [h2]
  exact hg.1 _

theorem readLE32_meta {root : Bytes} (h : root.length = 32) {d : Nat} (hd : d < 256) :
    readLE32 (root ++ le4 d ++ List.replicate 4 0) 32 = d := by
  have hle : le4 d = [d, 0, 0, 0] := by
    have h2 : d / 256 = 0 := Nat.div_eq_of_lt (by omega)
    have h3 : d / 65536 = 0 := Nat.div_eq_of_lt (by omega)
    have h4 : d / 16777216 = 0 := Nat.div_eq_of_lt (by omega)
    simp [le4, Nat.mod_eq_of_lt hd, h2, h3, h4]
  rw [hle, List.append_assoc, readLE32]
  have hget : ∀ k, (root ++ ([d, 0, 0, 0] ++ List.replicate 4 0)).getD (32 + k) 0 =
      ([d, 0, 0, 0] ++ List.replicate 4 0).getD k 0 := by
    intro k
    rw [List.getD_append_right _ _ _ _ (by omega), h]
    congr 1
    omega
  have e0 : (root ++ ([d, 0, 0, 0] ++ List.replicate 4 0)).getD 32 0 = d := by
    rw [List.getD_append_right _ _ _ _ (by omega), h]
    rfl
  rw [e0, hget 1, hget 2, hget 3]
  rfl

/-! ## Fresh-construction characterization -/

/-- The node-put log produced by fresh construction of variant 1, with the
payload built by the two `Buffer.copy` calls of lines 57-59. -/
theorem initLoop1_spec (H : Hasher) (depth : Nat) :
    ∀ j, j ≤ depth → ∃ st, initLoop1 H depth j = some st ∧
      st.2 = (List.range j).map (fun m =>
        (specD H (m + 1), copyAt (specD H m) (copyAt (specD H m) (List.replicate 64 0) 0) 32)) ∧
      ∀ i, st.1 i = if depth - j ≤ i ∧ i ≤ depth then some (specD H (depth - i)) else none := by
  intro j
  induction j with
  | zero =>
    intro _
    refine ⟨_, rfl, rfl, ?_⟩
    intro i
    simp only
    by_cases hi : i = depth
    · subst hi
      rw [if_pos rfl, if_pos (by omega), Nat.sub_self]
      rfl
    · rw [if_neg hi, if_neg (by omega)]
  | succ j ih =>
    intro hj
    obtain ⟨st, hst, hps, hhs⟩ := ih (by omega)
    rw [initLoop1, hst, Option.some_bind, hhs (depth - j), if_pos (by omega)]
    have hdj : depth - (depth - j) = j := by omega
    rw [hdj, Option.map_some']
    refine ⟨_, rfl, ?_, ?_⟩
    · rw [hps, List.range_succ, List.map_append]
      rfl
    · intro i
      simp only
      by_cases hi : i = depth - (j + 1)
      · subst hi
        rw [if_pos rfl, if_pos (by omega)]
        have : depth - (depth - (j + 1)) = j + 1 := by omega
        rw [this]
        rfl
      · rw [if_neg hi, hhs i]
        by_cases hc : depth - j ≤ i ∧ i ≤ depth
        · rw [if_pos hc, if_pos (by omega)]
        · rw [if_neg hc, if_neg (by omega)]

/-- The node-put log produced by fresh construction of variant 2, with the
payload built by `Buffer.concat`. -/
theorem initLoop2_spec (H : Hasher) (depth : Nat) :
    ∀ j, j ≤ depth → ∃ st, initLoop2 H depth j = some st ∧
      st.2 = (List.range j).map (fun m => (specD H (m + 1), specD H m ++ specD H m)) ∧
      ∀ i, st.1 i = if depth - j ≤ i ∧ i ≤ depth then some (specD H (depth - i)) else none := by
  intro j
  induction j with
  | zero =>
    intro _
    refine ⟨_, rfl, rfl, ?_⟩
    intro i
    simp only
    by_cases hi : i = depth
    · subst hi
      rw [if_pos rfl, if_pos (by omega), Nat.sub_self]
      rfl
    · rw [if_neg hi, if_neg (by omega)]
  | succ j ih =>
    intro hj
    obtain ⟨st, hst, hps, hhs⟩ := ih (by omega)
    rw [initLoop2, hst, Option.some_bind, hhs (depth - j), if_pos (by omega)]
    have hdj : depth - (depth - j) = j := by omega
    rw [hdj, Option.map_some']
    refine ⟨_, rfl, ?_, ?_⟩
    · rw [hps, List.range_succ, List.map_append]
      rfl
    · intro i
      simp only
      by_cases hi : i = depth - (j + 1)
      · subst hi
        rw [if_pos rfl, if_pos (by omega)]
        have : depth - (depth - (j + 1)) = j + 1 := by omega
        rw [this]
        rfl
      · rw [if_neg hi, hhs i]
        by_cases hc : depth - j ≤ i ∧ i ≤ depth
        · rw [if_pos hc, if_pos (by omega)]
        · rw [if_neg hc, if_neg (by omega)]

/-- The canonical fresh node-put list: for level `i = depth - 1 - m` the
entry `digest[i] -> digest[i+1] || digest[i+1]`, deepest level first. -/
def freshPuts (H : Hasher) (depth : Nat) : List (Bytes × Bytes) :=
  (List.range depth).map fun m => (specD H (m + 1), specD H m ++ specD H m)

theorem ctor1_fresh {H : Hasher} (hg : GoodHasher H) {depth : Nat}
    (hd : 1 ≤ depth ∧ depth ≤ 32) :
    ctor1 H depth none = some (specD H depth, freshPuts H depth) := by
  obtain ⟨st, hst, hps, hhs⟩ := initLoop1_spec H depth depth (le_refl _)
  rw [ctor1, if_pos hd, hst, Option.some_bind, hhs 0, if_pos (by omega), Option.map_some',
    Nat.sub_zero, copyAt_full (specD_length hg depth)]
  have : st.2 = freshPuts H depth := by
    rw [hps, freshPuts]
    congr 1
    funext m
    rw [copyAt_pair (specD_length hg m) (specD_length hg m)]
  rw [this]

theorem ctor2_fresh {H : Hasher} {depth : Nat} (name : Bytes)
    (hd : 1 ≤ depth ∧ depth ≤ 32) :
    ctor2 H name depth none =
      some (specD H depth, freshPuts H depth,
        [(name, metaBytes (List.replicate 32 0) depth)]) := by
  obtain ⟨st, hst, hps, hhs⟩ := initLoop2_spec H depth depth (le_refl _)
  rw [ctor2, if_pos hd, hst, Option.some_bind, hhs 0, if_pos (by omega), Option.map_some',
    Nat.sub_zero, hps]
  rfl

/-! ## Content-addressed preservation -/

/-- `s'` preserves every content-addressed entry of `s`. -/
def presCA (H : Hasher) (s s' : Store) : Prop :=
  ∀ k v, s k = some v → v.length = 64 → k = compress H (slice0 v) (slice1 v) → s' k = some v

theorem presCA_refl (H : Hasher) (s : Store) : presCA H s s := fun _ _ h _ _ => h

theorem presCA_trans {H : Hasher} {s₁ s₂ s₃ : Store}
    (h12 : presCA H s₁ s₂) (h23 : presCA H s₂ s₃) : presCA H s₁ s₃ :=
  fun k v h hl hk => h23 k v (h12 k v h hl hk) hl hk

/-- A content-addressed put can only overwrite an equal entry: collisions
of `compress` on 32-byte halves are ruled out by `GoodHasher`. -/
theorem presCA_put {H : Hasher} {s : Store} {e : Bytes × Bytes}
    (hg : GoodHasher H) (he : CAput H e) : presCA H s (s.put e.1 e.2) := by
  intro k v h hl hk
  by_cases hke : k = e.1
  · subst hke
    obtain ⟨hel, hek⟩ := he
    have h0 : (slice0 v).length = 32 := slice0_length hl
    have h1 : (slice1 v).length = 32 := slice1_length hl
    have h0' : (slice0 e.2).length = 32 := slice0_length hel
    have h1' : (slice1 e.2).length = 32 := slice1_length hel
    obtain ⟨hv0, hv1⟩ := compress_inj hg h0 h1 h0' h1' (hk ▸ hek)
    have hveq : v = e.2 := by
      rw [← slice_recomb hl, hv0, hv1, slice_recomb hel]
    rw [Store.put_same, hveq]
  · rw [Store.put_other _ _ _ _ hke]
    exact h

theorem presCA_putList {H : Hasher} {log : List (Bytes × Bytes)}
    (hg : GoodHasher H) (hlog : ∀ e ∈ log, CAput H e) (s : Store) :
    presCA H s (putList s log) := by
  induction log generalizing s with
  | nil => exact presCA_refl H s
  | cons e t ih =>
    rw [putList, List.foldl_cons, ← putList]
    exact presCA_trans (presCA_put hg (hlog e (List.mem_cons_self _ _)))
      (ih (fun e' he' => hlog e' (List.mem_cons_of_mem _ he')) _)

/-- Putting a key that is not 32 bytes long (the metadata name) preserves
all content-addressed entries. -/
theorem presCA_put_name {H : Hasher} {s : Store} {name m : Bytes}
    (hg : GoodHasher H) (hn : name.length ≠ 32) : presCA H s (s.put name m) := by
  intro k v h hl hk
  have : k.length = 32 := by rw [hk]; exact hg.1 _
  rw [Store.put_other _ _ _ _ (fun hkn => hn (by rw [← hkn]; exact this))]
  exact h

/-- Along a store extension preserving content-addressed entries, a valid
subtree stays valid and its hash-path reads are unchanged. -/
theorem validT_pres {H : Hasher} {s s' : Store} (hp : presCA H s s') :
    ∀ r cur, validT H s cur r = true →
      validT H s' cur r = true ∧ ∀ index, getPathRec1 s' index cur r = getPathRec1 s index cur r := by
  intro r
  induction r with
  | zero => exact fun cur _ => ⟨rfl, fun _ => rfl⟩
  | succ r ih =>
    intro cur hv
    obtain ⟨v, hsv, hl, hk, hv0, hv1⟩ := validT_succ.mp hv
    have hsv' : s' cur = some v := hp cur v hsv hl hk
    obtain ⟨hv0', hp0⟩ := ih _ hv0
    obtain ⟨hv1', hp1⟩ := ih _ hv1
    refine ⟨validT_succ.mpr ⟨v, hsv', hl, hk, hv0', hv1'⟩, ?_⟩
    intro index
    rw [getPathRec1, getPathRec1, hsv, hsv', Option.some_bind, Option.some_bind]
    by_cases hr : r = 0
    · rw [if_pos hr, if_pos hr]
    · rw [if_neg hr, if_neg hr]
      by_cases hb : bitAt index r = 1
      · rw [if_pos hb, hp1]
      · rw [if_neg hb, hp0]

/-! ## Hash-path characterization -/

theorem visitNode_succ {s : Store} {index : Nat} :
    ∀ r cur k v, s cur = some v →
      visitNode s index (r + 1) cur (k + 1) =
        visitNode s index r (if bitAt index r = 1 then slice1 v else slice0 v) k := by
  intro r cur k
  induction k with
  | zero =>
    intro v hv
    have h1 : visitNode s index (r + 1) cur (0 + 1) =
        (visitNode s index (r + 1) cur 0).bind fun nd =>
          (s nd).map fun w => if bitAt index (r + 1 - 0 - 1) = 1 then slice1 w else slice0 w := rfl
    have h2 : visitNode s index (r + 1) cur 0 = some cur := rfl
    rw [h1, h2, Option.some_bind, hv, Option.map_some']
    have h3 : r + 1 - 0 - 1 = r := by omega
    rw [h3]
    rfl
  | succ k ih =>
    intro v hv
    have h1 : visitNode s index (r + 1) cur (k + 1 + 1) =
        (visitNode s index (r + 1) cur (k + 1)).bind fun nd =>
          (s nd).map fun w =>
            if bitAt index (r + 1 - (k + 1) - 1) = 1 then slice1 w else slice0 w := rfl
    have h2 : visitNode s index r (if bitAt index r = 1 then slice1 v else slice0 v) (k + 1) =
        (visitNode s index r (if bitAt index r = 1 then slice1 v else slice0 v) k).bind fun nd =>
          (s nd).map fun w =>
            if bitAt index (r - k - 1) = 1 then slice1 w else slice0 w := rfl
    rw [h1, h2, ih v hv]
    have h3 : r + 1 - (k + 1) - 1 = r - k - 1 := by omega
    rw [h3]

theorem childrenAt_succ {s : Store} {index : Nat} {r : Nat} {cur : Bytes} {k : Nat} {v : Bytes}
    (hv : s cur = some v) :
    childrenAt s index (r + 1) cur (k + 1) =
      childrenAt s index r (if bitAt index r = 1 then slice1 v else slice0 v) k := by
  rw [childrenAt, childrenAt, visitNode_succ r cur k v hv]

/-- A valid subtree of height `r ≥ 1` yields a hash path of exactly `r`
pairs, the pair at output position `r - 1 - k` being the children of the
node visited at level `k`. -/
theorem getPathRec1_spec {H : Hasher} {s : Store} (index : Nat) :
    ∀ r cur, validT H s cur r = true → 1 ≤ r →
      ∃ p, getPathRec1 s index cur r = some p ∧ p.length = r ∧
        ∀ k, k < r → p[r - 1 - k]? = childrenAt s index r cur k := by
  intro r
  induction r with
  | zero => omega
  | succ r ih =>
    intro cur hv _
    obtain ⟨v, hsv, hl, hk, hv0, hv1⟩ := validT_succ.mp hv
    by_cases hr : r = 0
    · subst hr
      refine ⟨[(slice0 v, slice1 v)], ?_, rfl, ?_⟩
      · rw [getPathRec1, hsv, Option.some_bind, if_pos rfl]
      · intro k hk1
        interval_cases k
        rw [childrenAt, visitNode, Option.some_bind, hsv]
        rfl
    · have hvc : validT H s (if bitAt index r = 1 then slice1 v else slice0 v) r = true := by
        by_cases hb : bitAt index r = 1
        · rw [if_pos hb]; exact hv1
        · rw [if_neg hb]; exact hv0
      obtain ⟨q, hq, hqlen, hqcont⟩ := ih _ hvc (by omega)
      refine ⟨q ++ [(slice0 v, slice1 v)], ?_, by simp [hqlen], ?_⟩
      · rw [getPathRec1, hsv, Option.some_bind, if_neg hr, hq]
        rfl
      · intro k hk1
        cases k with
        | zero =>
          have hpos : (q ++ [(slice0 v, slice1 v)])[r + 1 - 1 - 0]? = some (slice0 v, slice1 v) := by
            rw [show r + 1 - 1 - 0 = r by omega, List.getElem?_append_right (by omega),
              hqlen, Nat.sub_self]
            rfl
          rw [hpos, childrenAt, visitNode, Option.some_bind, hsv]
          rfl
        | succ k =>
          have hlt : r - 1 - k < q.length := by omega
          have hpos : (q ++ [(slice0 v, slice1 v)])[r + 1 - 1 - (k + 1)]? = q[r - 1 - k]? := by
            rw [show r + 1 - 1 - (k + 1) = r - 1 - k by omega, List.getElem?_append, if_pos hlt]
          rw [hpos, hqcont k (by omega), childrenAt_succ hsv]

/-- The two variants compute identical hash paths (depth ≥ 1). -/
theorem getPathRec2_eq (s : Store) (index : Nat) :
    ∀ r cur, getPathRec1 s index cur (r + 1) = getPathRec2 s index cur (r + 1) := by
  intro r
  induction r with
  | zero =>
    intro cur
    rw [getPathRec1, getPathRec2]
    cases s cur with
    | none => rfl
    | some v =>
      rw [Option.some_bind, Option.some_bind, if_pos rfl, getPathRec2, Option.map_some']
      rfl
  | succ r ih =>
    intro cur
    rw [getPathRec1, getPathRec2]
    cases s cur with
    | none => rfl
    | some v =>
      rw [Option.some_bind, Option.some_bind, if_neg (Nat.succ_ne_zero r), ih]

/-- The store-threaded variant-1 path recursion returns the unchanged
store together with the pure path result. -/
theorem getPathRecSt1_spec (s : Store) (index : Nat) :
    ∀ r cur, getPathRecSt1 s index cur r = (getPathRec1 s index cur r, s) := by
  intro r
  induction r with
  | zero => intro cur; rfl
  | succ r ih =>
    intro cur
    cases hsc : s cur with
    | none => simp only [getPathRecSt1, getPathRec1, hsc, Option.none_bind]
    | some v =>
      simp only [getPathRecSt1, getPathRec1, hsc, Option.some_bind]
      by_cases hr : r = 0
      · simp only [if_pos hr]
      · simp only [if_neg hr, ih]

/-- The store-threaded variant-2 path recursion returns the unchanged
store together with the pure path result. -/
theorem getPathRecSt2_spec (s : Store) (index : Nat) :
    ∀ r cur, getPathRecSt2 s index cur r = (getPathRec2 s index cur r, s) := by
  intro r
  induction r with
  | zero => intro cur; rfl
  | succ r ih =>
    intro cur
    cases hsc : s cur with
    | none => simp only [getPathRecSt2, getPathRec2, hsc, Option.none_bind]
    | some v =>
      simp only [getPathRecSt2, getPathRec2, hsc, Option.some_bind, ih]

/-- Appending a root-adjacent pair to a verified path: the verifier folds
the extra pair at position `m + p.length`. -/
theorem verifyUp_append (H : Hasher) (index : Nat) :
    ∀ (p : List (Bytes × Bytes)) (cur : Bytes) (m : Nat) (l rr : Bytes),
      verifyUp H index cur (p ++ [(l, rr)]) m =
        (verifyUp H index cur p m).bind fun c =>
          if (if bitAt index (m + p.length) = 1 then rr else l) = c then
            some (compress H l rr) else none := by
  intro p
  induction p with
  | nil =>
    intro cur m l rr
    simp only [List.nil_append, List.length_nil, Nat.add_zero, Option.some_bind, verifyUp]
  | cons hd tl ih =>
    intro cur m l rr
    simp only [List.cons_append, verifyUp, List.append_eq]
    by_cases hb : (if bitAt index m = 1 then hd.2 else hd.1) = cur
    · simp only [if_pos hb, ih]
      have hm : m + 1 + tl.length = m + (hd :: tl).length := by
        simp only [List.length_cons]
        omega
      rw [hm]
    · simp only [if_neg hb, Option.none_bind]

/-! ## The update characterization -/

/-- Central lemma about `updateRecursively` on a valid subtree: it
succeeds, its store is the input plus a content-addressed put log, the
result digest roots a valid subtree in the new store, and the new hash
path for the updated index verifies from `hash(value)` back up to the
result digest. -/
theorem updateRec1_spec {H : Hasher} (hg : GoodHasher H) (index : Nat) (value : Bytes) :
    ∀ r s cur, validT H s cur r = true →
      ∃ nd s' log, updateRec1 H s index value cur r = some (nd, s', log) ∧
        s' = putList s log ∧
        (∀ e ∈ log, CAput H e) ∧
        nd.length = 32 ∧
        validT H s' nd r = true ∧
        (r = 0 → nd = H.hash value) ∧
        (1 ≤ r → ∃ p, getPathRec1 s' index nd r = some p ∧ p.length = r ∧
          verifyUp H index (H.hash value) p 0 = some nd) := by
  intro r
  induction r with
  | zero =>
    intro s cur _
    refine ⟨H.hash value, s, [], rfl, rfl, by simp, hg.1 _, rfl, fun _ => rfl, by omega⟩
  | succ r ih =>
    intro s cur hv
    obtain ⟨v, hsv, hl, hk, hv0, hv1⟩ := validT_succ.mp hv
    have hl0 : (slice0 v).length = 32 := slice0_length hl
    have hl1 : (slice1 v).length = 32 := slice1_length hl
    by_cases hb : bitAt index r = 1
    · -- descend right: new node is (old left, new right child)
      obtain ⟨nd', s1, log1, hrec, hs1, hca1, hndlen, hvalid1, hleaf1, hpath1⟩ := ih s (slice1 v) hv1
      have hnb : copyAt nd' (copyAt (slice0 v) (List.replicate 64 0) 0) 32 = slice0 v ++ nd' :=
        copyAt_pair hl0 hndlen
      have hnblen : (slice0 v ++ nd').length = 64 := by simp [hl0, hndlen]
      have hsl0 : slice0 (slice0 v ++ nd') = slice0 v := slice0_append hl0
      have hsl1 : slice1 (slice0 v ++ nd') = nd' := slice1_append hl0 hndlen
      have hCAnew : CAput H (compress H (slice0 v) nd', slice0 v ++ nd') := by
        refine ⟨hnblen, ?_⟩
        rw [hsl0, hsl1]
      have hstep : updateRec1 H s index value cur (r + 1) =
          some (compress H (slice0 v) nd',
            s1.put (compress H (slice0 v) nd') (slice0 v ++ nd'),
            log1 ++ [(compress H (slice0 v) nd', slice0 v ++ nd')]) := by
        simp only [updateRec1, hsv, Option.some_bind, if_pos hb, hrec, Option.map_some', hnb]
      have hpres1 : presCA H s s1 := hs1 ▸ presCA_putList hg hca1 s
      have hpres2 : presCA H s1 (s1.put (compress H (slice0 v) nd') (slice0 v ++ nd')) :=
        presCA_put hg hCAnew
      have hput : (s1.put (compress H (slice0 v) nd') (slice0 v ++ nd'))
          (compress H (slice0 v) nd') = some (slice0 v ++ nd') := Store.put_same _ _ _
      refine ⟨_, _, _, hstep, ?_, ?_, hg.1 _, ?_, fun h => absurd h (Nat.succ_ne_zero r),
        fun _ => ?_⟩
      · rw [putList_append, ← hs1]
        rfl
      · intro e he
        rcases List.mem_append.mp he with h1 | h2
        · exact hca1 e h1
        · rw [List.mem_singleton.mp h2]
          exact hCAnew
      · refine validT_succ.mpr ⟨slice0 v ++ nd', hput, hnblen, ?_, ?_, ?_⟩
        · rw [hsl0, hsl1]
        · rw [hsl0]
          exact (validT_pres (presCA_trans hpres1 hpres2) r _ hv0).1
        · rw [hsl1]
          exact (validT_pres hpres2 r _ hvalid1).1
      · by_cases hr : r = 0
        · subst hr
          have hnd' : nd' = H.hash value := hleaf1 rfl
          refine ⟨[(slice0 v, nd')], ?_, rfl, ?_⟩
          · rw [getPathRec1, hput, Option.some_bind, if_pos rfl, hsl0, hsl1]
          · rw [verifyUp, if_pos (by rw [if_pos hb, hnd'])]
            rfl
        · obtain ⟨p1, hp1, hp1len, hver1⟩ := hpath1 (by omega)
          have hlift := (validT_pres hpres2 r nd' hvalid1).2 index
          refine ⟨p1 ++ [(slice0 v, nd')], ?_, by simp [hp1len], ?_⟩
          · rw [getPathRec1, hput, Option.some_bind, if_neg hr, if_pos hb, hsl1, hsl0,
              hlift, hp1, Option.map_some']
          · rw [verifyUp_append, hver1, Option.some_bind, Nat.zero_add, hp1len, if_pos hb,
              if_pos rfl]
    · -- descend left: new node is (new left child, old right)
      obtain ⟨nd', s1, log1, hrec, hs1, hca1, hndlen, hvalid1, hleaf1, hpath1⟩ := ih s (slice0 v) hv0
      have hnb : copyAt (slice1 v) (copyAt nd' (List.replicate 64 0) 0) 32 = nd' ++ slice1 v :=
        copyAt_pair hndlen hl1
      have hnblen : (nd' ++ slice1 v).length = 64 := by simp [hl1, hndlen]
      have hsl0 : slice0 (nd' ++ slice1 v) = nd' := slice0_append hndlen
      have hsl1 : slice1 (nd' ++ slice1 v) = slice1 v := slice1_append hndlen hl1
      have hCAnew : CAput H (compress H nd' (slice1 v), nd' ++ slice1 v) := by
        refine ⟨hnblen, ?_⟩
        rw [hsl0, hsl1]
      have hstep : updateRec1 H s index value cur (r + 1) =
          some (compress H nd' (slice1 v),
            s1.put (compress H nd' (slice1 v)) (nd' ++ slice1 v),
            log1 ++ [(compress H nd' (slice1 v), nd' ++ slice1 v)]) := by
        simp only [updateRec1, hsv, Option.some_bind, if_neg hb, hrec, Option.map_some', hnb]
      have hpres1 : presCA H s s1 := hs1 ▸ presCA_putList hg hca1 s
      have hpres2 : presCA H s1 (s1.put (compress H nd' (slice1 v)) (nd' ++ slice1 v)) :=
        presCA_put hg hCAnew
      have hput : (s1.put (compress H nd' (slice1 v)) (nd' ++ slice1 v))
          (compress H nd' (slice1 v)) = some (nd' ++ slice1 v) := Store.put_same _ _ _
      refine ⟨_, _, _, hstep, ?_, ?_, hg.1 _, ?_, fun h => absurd h (Nat.succ_ne_zero r),
        fun _ => ?_⟩
      · rw [putList_append, ← hs1]
        rfl
      · intro e he
        rcases List.mem_append.mp he with h1 | h2
        · exact hca1 e h1
        · rw [List.mem_singleton.mp h2]
          exact hCAnew
      · refine validT_succ.mpr ⟨nd' ++ slice1 v, hput, hnblen, ?_, ?_, ?_⟩
        · rw [hsl0, hsl1]
        · rw [hsl0]
          exact (validT_pres hpres2 r _ hvalid1).1
        · rw [hsl1]
          exact (validT_pres (presCA_trans hpres1 hpres2) r _ hv1).1
      · by_cases hr : r = 0
        · subst hr
          have hnd' : nd' = H.hash value := hleaf1 rfl
          refine ⟨[(nd', slice1 v)], ?_, rfl, ?_⟩
          · rw [getPathRec1, hput, Option.some_bind, if_pos rfl, hsl0, hsl1]
          · rw [verifyUp, if_pos (by rw [if_neg hb, hnd'])]
            rfl
        · obtain ⟨p1, hp1, hp1len, hver1⟩ := hpath1 (by omega)
          have hlift := (validT_pres hpres2 r nd' hvalid1).2 index
          refine ⟨p1 ++ [(nd', slice1 v)], ?_, by simp [hp1len], ?_⟩
          · rw [getPathRec1, hput, Option.some_bind, if_neg hr, if_neg hb, hsl1, hsl0,
              hlift, hp1, Option.map_some']
          · rw [verifyUp_append, hver1, Option.some_bind, Nat.zero_add, hp1len, if_neg hb,
              if_pos rfl]

/-! ## Fresh store validity -/

/-- In a store seeded by fresh construction, each level digest maps to its
duplicated-child payload (collisions between levels are harmless: equal
keys force equal payloads). -/
theorem freshPuts_lookup {H : Hasher} (hg : GoodHasher H) {depth r : Nat} (hr : r < depth)
    (s : Store) :
    putList s (freshPuts H depth) (specD H (r + 1)) = some (specD H r ++ specD H r) := by
  apply putList_consistent
  · left
    exact ⟨(specD H (r + 1), specD H r ++ specD H r),
      List.mem_map.mpr ⟨r, List.mem_range.mpr hr, rfl⟩, rfl⟩
  · intro e he hk
    obtain ⟨m, _, rfl⟩ := List.mem_map.mp he
    have : specD H m = specD H r := by
      have h1 := compress_inj hg (specD_length hg m) (specD_length hg m)
        (specD_length hg r) (specD_length hg r) hk
      exact h1.1
    rw [this]

/-- A freshly seeded store holds a valid tree of any height up to the
constructed depth, rooted at the corresponding level digest. -/
theorem freshPuts_valid {H : Hasher} (hg : GoodHasher H) {depth : Nat} (s : Store) :
    ∀ r, r ≤ depth → validT H (putList s (freshPuts H depth)) (specD H r) r = true := by
  intro r
  induction r with
  | zero => intro _; rfl
  | succ r ih =>
    intro hr
    have hlook := @freshPuts_lookup H hg depth r (by omega) s
    have hlen : (specD H r ++ specD H r).length = 64 := by
      simp [specD_length hg r]
    have hs0 : slice0 (specD H r ++ specD H r) = specD H r :=
      slice0_append (specD_length hg r)
    have hs1 : slice1 (specD H r ++ specD H r) = specD H r :=
      slice1_append (specD_length hg r) (specD_length hg r)
    refine validT_succ.mpr ⟨specD H r ++ specD H r, hlook, hlen, ?_, ?_, ?_⟩
    · rw [hs0, hs1]
      rfl
    · rw [hs0]
      exact ih (by omega)
    · rw [hs1]
      exact ih (by omega)

/-! ## The witness hasher is good -/

theorem pairUp_length : ∀ l : Bytes, (pairUp l).length = (l.length + 1) / 2
  | [] => rfl
  | [_] => by simp [pairUp]
  | a :: b :: t => by
    rw [pairUp, List.length_cons, pairUp_length t]
    simp only [List.length_cons]
    omega

theorem pairUp_inj_even : ∀ (n : Nat) (a b : Bytes), a.length = 2 * n → b.length = 2 * n →
    pairUp a = pairUp b → a = b := by
  intro n
  induction n with
  | zero =>
    intro a b ha hb _
    rw [List.length_eq_zero.mp (by omega : a.length = 0),
      List.length_eq_zero.mp (by omega : b.length = 0)]
  | succ n ih =>
    intro a b ha hb h
    match a, b with
    | [], _ => simp at ha
    | [_], _ => simp at ha; omega
    | _ :: _ :: _, [] => simp at hb
    | _ :: _ :: _, [_] => simp at hb; omega
    | x :: x' :: xs, y :: y' :: ys =>
      rw [pairUp, pairUp] at h
      have h1 := List.head_eq_of_cons_eq h
      have h2 := List.tail_eq_of_cons_eq h
      have h3 := congrArg Nat.unpair h1
      simp only [Nat.unpair_pair, Prod.mk.injEq] at h3
      have h4 : xs = ys := by
        apply ih xs ys (by simp at ha; omega) (by simp at hb; omega) h2
      rw [h3.1, h3.2, h4]

theorem toyHash_of_64 {a : Bytes} (ha : a.length = 64) : toyHash a = pairUp a := by
  have hpa : (pairUp a).length = 32 := by rw [pairUp_length, ha]
  rw [toyHash, ← hpa, List.take_left]

theorem toy_good : GoodHasher toyHasher := by
  constructor
  · intro b
    have : (pairUp b ++ List.replicate 32 (0 : Nat)).length ≥ 32 := by simp
    simp only [toyHasher, toyHash, List.length_take]
    omega
  · intro a b ha hb h
    have h' : toyHash a = toyHash b := h
    rw [toyHash_of_64 ha, toyHash_of_64 hb] at h'
    exact pairUp_inj_even 32 a b (by omega) (by omega) h'

/-! ## Claim C7 -/

/-- C7: construction throws an `InvalidConfiguration` (`Bad depth`) error
if and only if the requested depth lies outside `[1, 32]`; inside the
range both constructors succeed, outside it both abort (returning `none`,
hence writing nothing to the store). -/
theorem C7_ctor_depth_guard (H : Hasher) (name : Bytes) (depth : Nat) (rootGiven : Option Bytes) :
    ((ctor1 H depth rootGiven).isSome ↔ (1 ≤ depth ∧ depth ≤ 32)) ∧
    ((ctor2 H name depth rootGiven).isSome ↔ (1 ≤ depth ∧ depth ≤ 32)) := by
  by_cases hd : 1 ≤ depth ∧ depth ≤ 32
  · constructor
    · cases rootGiven with
      | some rt =>
        rw [ctor1, if_pos hd]
        simp [hd]
      | none =>
        obtain ⟨st, hst, _, hhs⟩ := initLoop1_spec H depth depth (le_refl _)
        rw [ctor1, if_pos hd, hst, Option.some_bind, hhs 0, if_pos (by omega),
          Option.map_some']
        simp [hd]
    · cases rootGiven with
      | some rt =>
        rw [ctor2, if_pos hd]
        simp [hd]
      | none =>
        obtain ⟨st, hst, _, hhs⟩ := initLoop2_spec H depth depth (le_refl _)
        rw [ctor2, if_pos hd, hst, Option.some_bind, hhs 0, if_pos (by omega),
          Option.map_some']
        simp [hd]
  · rw [ctor1.eq_def, ctor2.eq_def, if_neg hd, if_neg hd]
    simp [hd]

/-! ## Claim C2 -/

/-- C2: fresh construction (both variants) computes
`digest[depth] = hash(zero_64)`, `digest[i] = compress(digest[i+1],
digest[i+1])`, sets the root to `digest[0]` (the spec-side recurrence
`specD H depth`), and writes exactly `depth` node entries, level
`depth - 1` first, the entry for level `i` mapping `digest[i]` to
`digest[i+1] || digest[i+1]`; the leaf level is not stored. -/
theorem C2_fresh_construction {H : Hasher} (hg : GoodHasher H) (name : Bytes) {depth : Nat}
    (hd : 1 ≤ depth ∧ depth ≤ 32) :
    ctor1 H depth none = some (specD H depth, freshPuts H depth) ∧
    ctor2 H name depth none =
      some (specD H depth, freshPuts H depth,
        [(name, metaBytes (List.replicate 32 0) depth)]) ∧
    (freshPuts H depth).length = depth ∧
    ∀ i, i < depth → (freshPuts H depth)[depth - 1 - i]? =
      some (specD H (depth - i), specD H (depth - (i + 1)) ++ specD H (depth - (i + 1))) := by
  refine ⟨ctor1_fresh hg hd, ctor2_fresh name hd, by simp [freshPuts], ?_⟩
  intro i hi
  have hm : depth - 1 - i < depth := by omega
  rw [freshPuts, List.getElem?_map, List.getElem?_range hm, Option.map_some']
  have h1 : depth - 1 - i + 1 = depth - i := by omega
  have h2 : depth - 1 - i = depth - (i + 1) := by omega
  rw [h1, h2]

/-- Witness for C2 at depth 1 with the executable hasher. -/
theorem C2_fresh_construction_witness :
    GoodHasher toyHasher ∧ (1 ≤ 1 ∧ 1 ≤ 32) ∧
    (ctor1 toyHasher 1 none = some (specD toyHasher 1, freshPuts toyHasher 1) ∧
     ctor2 toyHasher [7] 1 none =
       some (specD toyHasher 1, freshPuts toyHasher 1,
         [([7], metaBytes (List.replicate 32 0) 1)]) ∧
     (freshPuts toyHasher 1).length = 1 ∧
     ∀ i, i < 1 → (freshPuts toyHasher 1)[1 - 1 - i]? =
       some (specD toyHasher (1 - i),
         specD toyHasher (1 - (i + 1)) ++ specD toyHasher (1 - (i + 1)))) :=
  ⟨toy_good, ⟨by omega, by omega⟩, C2_fresh_construction toy_good [7] ⟨by omega, by omega⟩⟩

theorem copyAt_same_length {src dst : Bytes} (hs : src.length = 32) (hd : dst.length = 32) :
    copyAt src dst 0 = src := by
  rw [copyAt_concat (by omega), List.take_zero, List.nil_append, Nat.zero_add, hs,
    List.drop_eq_nil_of_le (by omega), List.append_nil]

/-! ## Claim C8 -/

/-- C8: when a metadata record exists for the name, `MerkleTree.new` (both
variants) ignores the caller-supplied depth entirely: the tree's root and
depth come from the record, the store is untouched, no node entry is
written (empty put log) and the only key read is the name. -/
theorem C8_restore_ignores_depth {H : Hasher} {s : Store} {name meta : Bytes}
    (hm : s name = some meta) (hdec : 1 ≤ readLE32 meta 32 ∧ readLE32 meta 32 ≤ 32)
    (d₁ d₂ : Nat) :
    new1 H s name d₁ = new1 H s name d₂ ∧
    new2 H s name d₁ = new2 H s name d₂ ∧
    new1 H s name d₁ =
      some (⟨copyAt (meta.take 32) (List.replicate 32 0) 0, readLE32 meta 32⟩, s, [], [name]) ∧
    new2 H s name d₁ = some (⟨meta.take 32, readLE32 meta 32⟩, s, [], [name]) := by
  have h1 : ∀ d : Nat, new1 H s name d =
      some (⟨copyAt (meta.take 32) (List.replicate 32 0) 0, readLE32 meta 32⟩, s, [], [name]) := by
    intro d
    simp only [new1, hm, ctor1, if_pos hdec, Option.map_some']
    rfl
  have h2 : ∀ d : Nat, new2 H s name d =
      some (⟨meta.take 32, readLE32 meta 32⟩, s, [], [name]) := by
    intro d
    simp only [new2, hm, ctor2, if_pos hdec, Option.map_some']
    rfl
  exact ⟨(h1 d₁).trans (h1 d₂).symm, (h2 d₁).trans (h2 d₂).symm, h1 d₁, h2 d₁⟩

/-- Witness for C8: a depth-1 metadata record, caller depths 5 and 9. -/
theorem C8_restore_ignores_depth_witness :
    ((emptyStore.put [7] (metaBytes (List.replicate 32 0) 1)) [7] =
      some (metaBytes (List.replicate 32 0) 1)) ∧
    (1 ≤ readLE32 (metaBytes (List.replicate 32 0) 1) 32 ∧
      readLE32 (metaBytes (List.replicate 32 0) 1) 32 ≤ 32) ∧
    (new1 toyHasher (emptyStore.put [7] (metaBytes (List.replicate 32 0) 1)) [7] 5 =
       new1 toyHasher (emptyStore.put [7] (metaBytes (List.replicate 32 0) 1)) [7] 9 ∧
     new2 toyHasher (emptyStore.put [7] (metaBytes (List.replicate 32 0) 1)) [7] 5 =
       new2 toyHasher (emptyStore.put [7] (metaBytes (List.replicate 32 0) 1)) [7] 9 ∧
     new1 toyHasher (emptyStore.put [7] (metaBytes (List.replicate 32 0) 1)) [7] 5 =
       some (⟨copyAt ((metaBytes (List.replicate 32 0) 1).take 32) (List.replicate 32 0) 0,
         readLE32 (metaBytes (List.replicate 32 0) 1) 32⟩,
         emptyStore.put [7] (metaBytes (List.replicate 32 0) 1), [], [[7]]) ∧
     new2 toyHasher (emptyStore.put [7] (metaBytes (List.replicate 32 0) 1)) [7] 5 =
       some (⟨(metaBytes (List.replicate 32 0) 1).take 32,
         readLE32 (metaBytes (List.replicate 32 0) 1) 32⟩,
         emptyStore.put [7] (metaBytes (List.replicate 32 0) 1), [], [[7]])) :=
  ⟨by decide, by decide, C8_restore_ignores_depth (by decide) (by decide) 5 9⟩

/-! ## Claim C9 -/

/-- Variant 1 `getHashPath` as a state transformer on the tree and store. -/
def getHashPathSt1 (s : Store) (t : MTree) (index : Nat) :
    Option (List (Bytes × Bytes)) × MTree × Store :=
  ((getPathRecSt1 s index t.root t.depth).1, t, (getPathRecSt1 s index t.root t.depth).2)

/-- Variant 2 `getHashPath` as a state transformer on the tree and store. -/
def getHashPathSt2 (s : Store) (t : MTree) (index : Nat) :
    Option (List (Bytes × Bytes)) × MTree × Store :=
  ((getPathRecSt2 s index t.root t.depth).1, t, (getPathRecSt2 s index t.root t.depth).2)

/-- C9: `getHashPath` (both variants) is read-only: it issues no store
writes and leaves the tree's in-memory root and depth unchanged — the
state after the call (tree and store) is exactly the state before it,
and the result is the pure path computation. -/
theorem C9_getHashPath_readonly (s : Store) (t : MTree) (index : Nat) :
    getHashPathSt1 s t index = (getHashPath1 s t index, t, s) ∧
    getHashPathSt2 s t index = (getHashPath2 s t index, t, s) := by
  constructor
  · rw [getHashPathSt1, getPathRecSt1_spec s index t.depth t.root]
    rfl
  · rw [getHashPathSt2, getPathRecSt2_spec s index t.depth t.root]
    rfl

/-! ## Claim C4 -/

/-- C4: on a fully constructed tree of depth in `[1, 32]` and an in-range
index, `getHashPath` (both variants return the same value) yields exactly
`depth` sibling pairs ordered leaf-to-root: the pair at output position
`depth - 1 - k` is the children pair of the node visited at level `k`,
where the walk from the root descends right at level `k` exactly when bit
`depth - k - 1` of the index is set. -/
theorem C4_hashpath_shape {H : Hasher} {s : Store} {t : MTree}
    (hv : validT H s t.root t.depth = true) (hd : 1 ≤ t.depth ∧ t.depth ≤ 32)
    {index : Nat} (hi : index < 2 ^ t.depth) :
    ∃ p, getHashPath1 s t index = some p ∧ getHashPath2 s t index = some p ∧
      p.length = t.depth ∧
      ∀ k, k < t.depth → p[t.depth - 1 - k]? = childrenAt s index t.depth t.root k := by
  obtain ⟨p, hp, hlen, hcont⟩ := getPathRec1_spec index t.depth t.root hv hd.1
  have h2 : getHashPath2 s t index = getHashPath1 s t index := by
    rw [getHashPath1, getHashPath2]
    cases ht : t.depth with
    | zero => omega
    | succ r => rw [← getPathRec2_eq]
  refine ⟨p, hp, ?_, hlen, hcont⟩
  rw [h2, getHashPath1, hp]

/-- Witness for C4: the fresh depth-1 tree, index 0. -/
theorem C4_hashpath_shape_witness :
    (validT toyHasher (putList emptyStore (freshPuts toyHasher 1)) (specD toyHasher 1) 1
      = true) ∧
    (1 ≤ 1 ∧ 1 ≤ 32) ∧ (0 < 2 ^ 1) ∧
    (∃ p, getHashPath1 (putList emptyStore (freshPuts toyHasher 1)) ⟨specD toyHasher 1, 1⟩ 0
        = some p ∧
      getHashPath2 (putList emptyStore (freshPuts toyHasher 1)) ⟨specD toyHasher 1, 1⟩ 0
        = some p ∧
      p.length = 1 ∧
      ∀ k, k < 1 → p[1 - 1 - k]? =
        childrenAt (putList emptyStore (freshPuts toyHasher 1)) 0 1 (specD toyHasher 1) k) :=
  ⟨by decide, ⟨by decide, by decide⟩, by decide,
    @C4_hashpath_shape toyHasher (putList emptyStore (freshPuts toyHasher 1))
      ⟨specD toyHasher 1, 1⟩ (by decide) ⟨by decide, by decide⟩ 0 (by decide)⟩

/-! ## Claims C1, C10, C5 -/

/-- C1: after `updateElement(index, value)` succeeds on a fully
constructed tree, walking `getHashPath(index)` upward from `hash(value)`
— at each level checking that the slot selected by the corresponding
index bit holds the current digest and compressing the pair — reproduces
exactly `getRoot()`, which is also the value `updateElement` returned. -/
theorem C1_update_then_verify {H : Hasher} {s : Store} {name : Bytes} {t : MTree}
    (hg : GoodHasher H) (hv : validT H s t.root t.depth = true)
    (hd : 1 ≤ t.depth ∧ t.depth ≤ 32) (hn : name.length ≠ 32)
    (index : Nat) (hi : index < 2 ^ t.depth) (value : Bytes) :
    ∃ rt t' s' log p, updateElement1 H s name t index value = some (rt, t', s', log) ∧
      getHashPath1 s' t' index = some p ∧
      verifyUp H index (H.hash value) p 0 = some (getRoot t') ∧
      rt = getRoot t' := by
  obtain ⟨nd, s1, log, hrec, hs1, hca, hndlen, hvalid, _, hpath⟩ :=
    updateRec1_spec hg index value t.depth s t.root hv
  obtain ⟨p, hp, hplen, hver⟩ := hpath (by omega)
  have hrootlen : t.root.length = 32 := by
    obtain ⟨r, hr⟩ : ∃ r, t.depth = r + 1 := ⟨t.depth - 1, by omega⟩
    rw [hr] at hv
    exact validT_key_length hg hv
  have hstep : updateElement1 H s name t index value =
      some (nd, ⟨nd, t.depth⟩, s1.put name (metaBytes nd t.depth), log) := by
    simp only [updateElement1, hrec, Option.map_some', copyAt_same_length hndlen hrootlen]
  have hlift := (validT_pres (@presCA_put_name H s1 name (metaBytes nd t.depth) hg hn)
    t.depth nd hvalid).2 index
  refine ⟨nd, ⟨nd, t.depth⟩, s1.put name (metaBytes nd t.depth), log, p, hstep, ?_, ?_, rfl⟩
  · rw [getHashPath1]
    exact hlift.trans hp
  · exact hver

/-- Witness for C1: depth-1 fresh tree, index 0, a 64-byte value of ones. -/
theorem C1_update_then_verify_witness :
    GoodHasher toyHasher ∧
    (validT toyHasher (putList emptyStore (freshPuts toyHasher 1)) (specD toyHasher 1) 1
      = true) ∧
    (1 ≤ 1 ∧ 1 ≤ 32) ∧ (List.length [7] ≠ 32) ∧ (0 < 2 ^ 1) ∧
    (∃ rt t' s' log p,
      updateElement1 toyHasher (putList emptyStore (freshPuts toyHasher 1)) [7]
        ⟨specD toyHasher 1, 1⟩ 0 (List.replicate 64 1) = some (rt, t', s', log) ∧
      getHashPath1 s' t' 0 = some p ∧
      verifyUp toyHasher 0 (toyHasher.hash (List.replicate 64 1)) p 0 = some (getRoot t') ∧
      rt = getRoot t') :=
  ⟨toy_good, by decide, ⟨by decide, by decide⟩, by decide, by decide,
    @C1_update_then_verify toyHasher (putList emptyStore (freshPuts toyHasher 1)) [7]
      ⟨specD toyHasher 1, 1⟩ toy_good (by decide) ⟨by decide, by decide⟩ (by decide) 0
      (by decide) (List.replicate 64 1)⟩

/-- C10: `updateElement` never validates the leaf value's length: for a
buffer of any length the call succeeds, no error is raised, and the new
leaf digest placed in the tree (the slot of the leaf-adjacent hash-path
pair selected by bit 0 of the index) is `hash(value)`. -/
theorem C10_no_value_validation {H : Hasher} {s : Store} {name : Bytes} {t : MTree}
    (hg : GoodHasher H) (hv : validT H s t.root t.depth = true)
    (hd : 1 ≤ t.depth ∧ t.depth ≤ 32) (hn : name.length ≠ 32)
    (index : Nat) (hi : index < 2 ^ t.depth) (value : Bytes) :
    ∃ rt t' s' log, updateElement1 H s name t index value = some (rt, t', s', log) ∧
      ∃ l r rest, getHashPath1 s' t' index = some ((l, r) :: rest) ∧
        (if bitAt index 0 = 1 then r else l) = H.hash value := by
  obtain ⟨nd, s1, log, hrec, hs1, hca, hndlen, hvalid, _, hpath⟩ :=
    updateRec1_spec hg index value t.depth s t.root hv
  obtain ⟨p, hp, hplen, hver⟩ := hpath (by omega)
  have hrootlen : t.root.length = 32 := by
    obtain ⟨r, hr⟩ : ∃ r, t.depth = r + 1 := ⟨t.depth - 1, by omega⟩
    rw [hr] at hv
    exact validT_key_length hg hv
  have hstep : updateElement1 H s name t index value =
      some (nd, ⟨nd, t.depth⟩, s1.put name (metaBytes nd t.depth), log) := by
    simp only [updateElement1, hrec, Option.map_some', copyAt_same_length hndlen hrootlen]
  have hlift := (validT_pres (@presCA_put_name H s1 name (metaBytes nd t.depth) hg hn)
    t.depth nd hvalid).2 index
  refine ⟨nd, ⟨nd, t.depth⟩, s1.put name (metaBytes nd t.depth), log, hstep, ?_⟩
  cases p with
  | nil =>
    rw [List.length_nil] at hplen
    omega
  | cons p0 rest =>
    rw [verifyUp] at hver
    by_cases hc : (if bitAt index 0 = 1 then p0.2 else p0.1) = H.hash value
    · refine ⟨p0.1, p0.2, rest, ?_, hc⟩
      rw [getHashPath1]
      have : getPathRec1 (s1.put name (metaBytes nd t.depth)) index nd t.depth
          = some (p0 :: rest) := hlift.trans hp
      rw [Prod.mk.eta]
      exact this
    · rw [if_neg hc] at hver
      exact absurd hver (by simp)

/-- Witness for C10: a 3-byte leaf value (far from the 64-byte
convention) is accepted. -/
theorem C10_no_value_validation_witness :
    GoodHasher toyHasher ∧
    (validT toyHasher (putList emptyStore (freshPuts toyHasher 1)) (specD toyHasher 1) 1
      = true) ∧
    (1 ≤ 1 ∧ 1 ≤ 32) ∧ (List.length [7] ≠ 32) ∧ (0 < 2 ^ 1) ∧
    (∃ rt t' s' log,
      updateElement1 toyHasher (putList emptyStore (freshPuts toyHasher 1)) [7]
        ⟨specD toyHasher 1, 1⟩ 0 [1, 2, 3] = some (rt, t', s', log) ∧
      ∃ l r rest, getHashPath1 s' t' 0 = some ((l, r) :: rest) ∧
        (if bitAt 0 0 = 1 then r else l) = toyHasher.hash [1, 2, 3]) :=
  ⟨toy_good, by decide, ⟨by decide, by decide⟩, by decide, by decide,
    @C10_no_value_validation toyHasher (putList emptyStore (freshPuts toyHasher 1)) [7]
      ⟨specD toyHasher 1, 1⟩ toy_good (by decide) ⟨by decide, by decide⟩ (by decide) 0
      (by decide) [1, 2, 3]⟩

/-- C5: every internal-node store entry ever written — the `depth` entries
of fresh construction and every entry written by `updateElement` — has
key `compress(value[0:32], value[32:64])`; and no operation overwrites an
existing content-addressed entry with different content, so old tree
states remain retrievable by their old root. -/
theorem C5_content_addressed {H : Hasher} {s : Store} {name : Bytes} {t : MTree}
    (hg : GoodHasher H) (hv : validT H s t.root t.depth = true)
    (hd : 1 ≤ t.depth ∧ t.depth ≤ 32) (hn : name.length ≠ 32)
    (index : Nat) (value : Bytes) :
    (∀ e ∈ freshPuts H t.depth, CAput H e) ∧
    ∃ rt t' s' log, updateElement1 H s name t index value = some (rt, t', s', log) ∧
      (∀ e ∈ log, CAput H e) ∧
      ∀ k v, s k = some v → v.length = 64 → k = compress H (slice0 v) (slice1 v) →
        s' k = some v := by
  constructor
  · intro e he
    obtain ⟨m, _, rfl⟩ := List.mem_map.mp he
    refine ⟨by simp [specD_length hg m], ?_⟩
    rw [slice0_append (specD_length hg m), slice1_append (specD_length hg m) (specD_length hg m)]
    rfl
  · obtain ⟨nd, s1, log, hrec, hs1, hca, hndlen, hvalid, _, _⟩ :=
      updateRec1_spec hg index value t.depth s t.root hv
    have hrootlen : t.root.length = 32 := by
      obtain ⟨r, hr⟩ : ∃ r, t.depth = r + 1 := ⟨t.depth - 1, by omega⟩
      rw [hr] at hv
      exact validT_key_length hg hv
    have hstep : updateElement1 H s name t index value =
        some (nd, ⟨nd, t.depth⟩, s1.put name (metaBytes nd t.depth), log) := by
      simp only [updateElement1, hrec, Option.map_some', copyAt_same_length hndlen hrootlen]
    refine ⟨nd, ⟨nd, t.depth⟩, s1.put name (metaBytes nd t.depth), log, hstep, hca, ?_⟩
    exact presCA_trans (hs1 ▸ presCA_putList hg hca s) (presCA_put_name hg hn)

/-- Witness for C5: depth-1 fresh tree, update index 0 with 64 ones. -/
theorem C5_content_addressed_witness :
    GoodHasher toyHasher ∧
    (validT toyHasher (putList emptyStore (freshPuts toyHasher 1)) (specD toyHasher 1) 1
      = true) ∧
    (1 ≤ 1 ∧ 1 ≤ 32) ∧ (List.length [7] ≠ 32) ∧
    ((∀ e ∈ freshPuts toyHasher 1, CAput toyHasher e) ∧
     ∃ rt t' s' log,
      updateElement1 toyHasher (putList emptyStore (freshPuts toyHasher 1)) [7]
        ⟨specD toyHasher 1, 1⟩ 0 (List.replicate 64 1) = some (rt, t', s', log) ∧
      (∀ e ∈ log, CAput toyHasher e) ∧
      ∀ k v, (putList emptyStore (freshPuts toyHasher 1)) k = some v → v.length = 64 →
        k = compress toyHasher (slice0 v) (slice1 v) → s' k = some v) :=
  ⟨toy_good, by decide, ⟨by decide, by decide⟩, by decide,
    @C5_content_addressed toyHasher (putList emptyStore (freshPuts toyHasher 1)) [7]
      ⟨specD toyHasher 1, 1⟩ toy_good (by decide) ⟨by decide, by decide⟩ (by decide) 0
      (List.replicate 64 1)⟩

/-! ## Claim C6: frame property of updates -/

theorem bitAt_cases (i r : Nat) : bitAt i r = 0 ∨ bitAt i r = 1 := by
  rw [bitAt, Nat.and_one_is_mod]
  omega

/-- Frame lemma: update at index `i` and read the hash path of an index
`j` whose route agrees with `i` on every bit above position `tt` and
differs at bit `tt`.  The path pairs strictly below the divergence
(output positions `< tt`) are unchanged; the pairs at and above it are
rebuilt along the new spine. -/
theorem updateRec1_frame {H : Hasher} (hg : GoodHasher H) (i j : Nat) (value : Bytes) :
    ∀ r s cur tt, validT H s cur r = true → tt < r →
      bitAt i tt ≠ bitAt j tt → (∀ u, tt < u → u < r → bitAt i u = bitAt j u) →
      ∃ nd s' log p q, updateRec1 H s i value cur r = some (nd, s', log) ∧
        getPathRec1 s j cur r = some p ∧ getPathRec1 s' j nd r = some q ∧
        q.take tt = p.take tt := by
  intro r
  induction r with
  | zero =>
    intro s cur tt _ htt
    exact absurd htt (by omega)
  | succ r ih =>
    intro s cur tt hv htt hdiff hagree
    obtain ⟨v, hsv, hl, hk, hv0, hv1⟩ := validT_succ.mp hv
    have hl0 : (slice0 v).length = 32 := slice0_length hl
    have hl1 : (slice1 v).length = 32 := slice1_length hl
    by_cases htop : tt = r
    · subst htop
      -- the routes diverge at this level
      by_cases hb : bitAt i tt = 1
      · -- i goes right, j goes left into the untouched old left subtree
        have hbj : ¬ bitAt j tt = 1 := fun h => hdiff (hb.trans h.symm)
        obtain ⟨nd', s1, log1, hrec, hs1, hca1, hndlen, hvalid1, _, _⟩ :=
          updateRec1_spec hg i value tt s (slice1 v) hv1
        have hnb : copyAt nd' (copyAt (slice0 v) (List.replicate 64 0) 0) 32 =
            slice0 v ++ nd' := copyAt_pair hl0 hndlen
        have hCAnew : CAput H (compress H (slice0 v) nd', slice0 v ++ nd') :=
          ⟨by simp [hl0, hndlen],
           by rw [slice0_append hl0, slice1_append hl0 hndlen]⟩
        have hstep : updateRec1 H s i value cur (tt + 1) =
            some (compress H (slice0 v) nd',
              s1.put (compress H (slice0 v) nd') (slice0 v ++ nd'),
              log1 ++ [(compress H (slice0 v) nd', slice0 v ++ nd')]) := by
          simp only [updateRec1, hsv, Option.some_bind, if_pos hb, hrec, Option.map_some', hnb]
        have hpres : presCA H s (s1.put (compress H (slice0 v) nd') (slice0 v ++ nd')) :=
          presCA_trans (hs1 ▸ presCA_putList hg hca1 s) (presCA_put hg hCAnew)
        have hput : (s1.put (compress H (slice0 v) nd') (slice0 v ++ nd'))
            (compress H (slice0 v) nd') = some (slice0 v ++ nd') := Store.put_same _ _ _
        obtain ⟨p, hp, hplen, _⟩ := getPathRec1_spec j (tt + 1) cur hv (by omega)
        by_cases hr : tt = 0
        · subst hr
          refine ⟨_, _, _, p,
            [(slice0 (slice0 v ++ nd'), slice1 (slice0 v ++ nd'))], hstep, hp, ?_, by simp⟩
          rw [getPathRec1, hput, Option.some_bind, if_pos rfl]
        · obtain ⟨p1, hp1, hp1len, _⟩ := getPathRec1_spec j tt (slice0 v) hv0 (by omega)
          have hlift := (validT_pres hpres tt (slice0 v) hv0).2 j
          have hpold : getPathRec1 s j cur (tt + 1) = some (p1 ++ [(slice0 v, slice1 v)]) := by
            rw [getPathRec1, hsv, Option.some_bind, if_neg hr, if_neg hbj, hp1,
              Option.map_some']
          rw [hp] at hpold
          have hq : getPathRec1 (s1.put (compress H (slice0 v) nd') (slice0 v ++ nd')) j
              (compress H (slice0 v) nd') (tt + 1) = some (p1 ++ [(slice0 v, nd')]) := by
            rw [getPathRec1, hput, Option.some_bind, if_neg hr, if_neg hbj,
              slice0_append hl0, slice1_append hl0 hndlen, hlift, hp1, Option.map_some']
          refine ⟨_, _, _, p, p1 ++ [(slice0 v, nd')], hstep, hp, hq, ?_⟩
          rw [Option.some.inj hpold, List.take_append_of_le_length (by omega),
            List.take_append_of_le_length (by omega)]
      · -- i goes left, j goes right into the untouched old right subtree
        have hbi : bitAt i tt = 0 := (bitAt_cases i tt).resolve_right hb
        have hbj : bitAt j tt = 1 := by
          rcases bitAt_cases j tt with h0 | h1
          · exact absurd (hbi.trans h0.symm) hdiff
          · exact h1
        obtain ⟨nd', s1, log1, hrec, hs1, hca1, hndlen, hvalid1, _, _⟩ :=
          updateRec1_spec hg i value tt s (slice0 v) hv0
        have hnb : copyAt (slice1 v) (copyAt nd' (List.replicate 64 0) 0) 32 =
            nd' ++ slice1 v := copyAt_pair hndlen hl1
        have hCAnew : CAput H (compress H nd' (slice1 v), nd' ++ slice1 v) :=
          ⟨by simp [hl1, hndlen],
           by rw [slice0_append hndlen, slice1_append hndlen hl1]⟩
        have hstep : updateRec1 H s i value cur (tt + 1) =
            some (compress H nd' (slice1 v),
              s1.put (compress H nd' (slice1 v)) (nd' ++ slice1 v),
              log1 ++ [(compress H nd' (slice1 v), nd' ++ slice1 v)]) := by
          simp only [updateRec1, hsv, Option.some_bind, if_neg hb, hrec, Option.map_some', hnb]
        have hpres : presCA H s (s1.put (compress H nd' (slice1 v)) (nd' ++ slice1 v)) :=
          presCA_trans (hs1 ▸ presCA_putList hg hca1 s) (presCA_put hg hCAnew)
        have hput : (s1.put (compress H nd' (slice1 v)) (nd' ++ slice1 v))
            (compress H nd' (slice1 v)) = some (nd' ++ slice1 v) := Store.put_same _ _ _
        obtain ⟨p, hp, hplen, _⟩ := getPathRec1_spec j (tt + 1) cur hv (by omega)
        by_cases hr : tt = 0
        · subst hr
          refine ⟨_, _, _, p,
            [(slice0 (nd' ++ slice1 v), slice1 (nd' ++ slice1 v))], hstep, hp, ?_, by simp⟩
          rw [getPathRec1, hput, Option.some_bind, if_pos rfl]
        · obtain ⟨p1, hp1, hp1len, _⟩ := getPathRec1_spec j tt (slice1 v) hv1 (by omega)
          have hlift := (validT_pres hpres tt (slice1 v) hv1).2 j
          have hpold : getPathRec1 s j cur (tt + 1) = some (p1 ++ [(slice0 v, slice1 v)]) := by
            rw [getPathRec1, hsv, Option.some_bind, if_neg hr, if_pos hbj, hp1,
              Option.map_some']
          rw [hp] at hpold
          have hq : getPathRec1 (s1.put (compress H nd' (slice1 v)) (nd' ++ slice1 v)) j
              (compress H nd' (slice1 v)) (tt + 1) = some (p1 ++ [(nd', slice1 v)]) := by
            rw [getPathRec1, hput, Option.some_bind, if_neg hr, if_pos hbj,
              slice0_append hndlen, slice1_append hndlen hl1, hlift, hp1, Option.map_some']
          refine ⟨_, _, _, p, p1 ++ [(nd', slice1 v)], hstep, hp, hq, ?_⟩
          rw [Option.some.inj hpold, List.take_append_of_le_length (by omega),
            List.take_append_of_le_length (by omega)]
    · -- the routes agree at this level; recurse on the shared child
      have htt' : tt < r := by omega
      have hr0 : ¬ r = 0 := by omega
      have hbe : bitAt i r = bitAt j r := hagree r (by omega) (by omega)
      by_cases hb : bitAt i r = 1
      · have hbj : bitAt j r = 1 := hbe ▸ hb
        obtain ⟨nd'', s1'', log'', hrec, hs1, hca1, hndlen, hvalid1, _, _⟩ :=
          updateRec1_spec hg i value r s (slice1 v) hv1
        obtain ⟨ndI, sI, logI, p1, q1, hrecI, hp1, hq1, htake⟩ :=
          ih s (slice1 v) tt hv1 htt' hdiff (fun u hu hur => hagree u hu (by omega))
        rw [hrec] at hrecI
        simp only [Option.some.injEq, Prod.mk.injEq] at hrecI
        obtain ⟨he1, he2, he3⟩ := hrecI
        subst he1; subst he2; subst he3
        have hnb : copyAt nd'' (copyAt (slice0 v) (List.replicate 64 0) 0) 32 =
            slice0 v ++ nd'' := copyAt_pair hl0 hndlen
        have hCAnew : CAput H (compress H (slice0 v) nd'', slice0 v ++ nd'') :=
          ⟨by simp [hl0, hndlen],
           by rw [slice0_append hl0, slice1_append hl0 hndlen]⟩
        have hstep : updateRec1 H s i value cur (r + 1) =
            some (compress H (slice0 v) nd'',
              s1''.put (compress H (slice0 v) nd'') (slice0 v ++ nd''),
              log'' ++ [(compress H (slice0 v) nd'', slice0 v ++ nd'')]) := by
          simp only [updateRec1, hsv, Option.some_bind, if_pos hb, hrec, Option.map_some', hnb]
        have hput : (s1''.put (compress H (slice0 v) nd'') (slice0 v ++ nd''))
            (compress H (slice0 v) nd'') = some (slice0 v ++ nd'') := Store.put_same _ _ _
        have hlift := (validT_pres (presCA_put hg hCAnew) r nd'' hvalid1).2 j
        obtain ⟨pp, hpp, hpplen, _⟩ := getPathRec1_spec j r (slice1 v) hv1 (by omega)
        rw [hp1] at hpp
        obtain ⟨qq, hqq, hqqlen, _⟩ := getPathRec1_spec j r nd'' hvalid1 (by omega)
        rw [hq1] at hqq
        have hpold : getPathRec1 s j cur (r + 1) = some (p1 ++ [(slice0 v, slice1 v)]) := by
          rw [getPathRec1, hsv, Option.some_bind, if_neg hr0, if_pos hbj, hp1,
            Option.map_some']
        have hq : getPathRec1 (s1''.put (compress H (slice0 v) nd'') (slice0 v ++ nd'')) j
            (compress H (slice0 v) nd'') (r + 1) = some (q1 ++ [(slice0 v, nd'')]) := by
          rw [getPathRec1, hput, Option.some_bind, if_neg hr0, if_pos hbj,
            slice0_append hl0, slice1_append hl0 hndlen, hlift, hq1, Option.map_some']
        refine ⟨_, _, _, p1 ++ [(slice0 v, slice1 v)], q1 ++ [(slice0 v, nd'')],
          hstep, hpold, hq, ?_⟩
        rw [List.take_append_of_le_length (by rw [← Option.some.inj hqq] at hqqlen; omega),
          List.take_append_of_le_length (by rw [← Option.some.inj hpp] at hpplen; omega)]
        exact htake
      · have hbi : bitAt i r = 0 := (bitAt_cases i r).resolve_right hb
        have hbj : ¬ bitAt j r = 1 := fun h => hb (hbe ▸ h)
        obtain ⟨nd'', s1'', log'', hrec, hs1, hca1, hndlen, hvalid1, _, _⟩ :=
          updateRec1_spec hg i value r s (slice0 v) hv0
        obtain ⟨ndI, sI, logI, p1, q1, hrecI, hp1, hq1, htake⟩ :=
          ih s (slice0 v) tt hv0 htt' hdiff (fun u hu hur => hagree u hu (by omega))
        rw [hrec] at hrecI
        simp only [Option.some.injEq, Prod.mk.injEq] at hrecI
        obtain ⟨he1, he2, he3⟩ := hrecI
        subst he1; subst he2; subst he3
        have hnb : copyAt (slice1 v) (copyAt nd'' (List.replicate 64 0) 0) 32 =
            nd'' ++ slice1 v := copyAt_pair hndlen hl1
        have hCAnew : CAput H (compress H nd'' (slice1 v), nd'' ++ slice1 v) :=
          ⟨by simp [hl1, hndlen],
           by rw [slice0_append hndlen, slice1_append hndlen hl1]⟩
        have hstep : updateRec1 H s i value cur (r + 1) =
            some (compress H nd'' (slice1 v),
              s1''.put (compress H nd'' (slice1 v)) (nd'' ++ slice1 v),
              log'' ++ [(compress H nd'' (slice1 v), nd'' ++ slice1 v)]) := by
          simp only [updateRec1, hsv, Option.some_bind, if_neg hb, hrec, Option.map_some', hnb]
        have hput : (s1''.put (compress H nd'' (slice1 v)) (nd'' ++ slice1 v))
            (compress H nd'' (slice1 v)) = some (nd'' ++ slice1 v) := Store.put_same _ _ _
        have hlift := (validT_pres (presCA_put hg hCAnew) r nd'' hvalid1).2 j
        obtain ⟨pp, hpp, hpplen, _⟩ := getPathRec1_spec j r (slice0 v) hv0 (by omega)
        rw [hp1] at hpp
        obtain ⟨qq, hqq, hqqlen, _⟩ := getPathRec1_spec j r nd'' hvalid1 (by omega)
        rw [hq1] at hqq
        have hpold : getPathRec1 s j cur (r + 1) = some (p1 ++ [(slice0 v, slice1 v)]) := by
          rw [getPathRec1, hsv, Option.some_bind, if_neg hr0, if_neg hbj, hp1,
            Option.map_some']
        have hq : getPathRec1 (s1''.put (compress H nd'' (slice1 v)) (nd'' ++ slice1 v)) j
            (compress H nd'' (slice1 v)) (r + 1) = some (q1 ++ [(nd'', slice1 v)]) := by
          rw [getPathRec1, hput, Option.some_bind, if_neg hr0, if_neg hbj,
            slice0_append hndlen, slice1_append hndlen hl1, hlift, hq1, Option.map_some']
        refine ⟨_, _, _, p1 ++ [(slice0 v, slice1 v)], q1 ++ [(nd'', slice1 v)],
          hstep, hpold, hq, ?_⟩
        rw [List.take_append_of_le_length (by rw [← Option.some.inj hqq] at hqqlen; omega),
          List.take_append_of_le_length (by rw [← Option.some.inj hpp] at hpplen; omega)]
        exact htake

/-- Counterexample to C6 as stated: depth-2 fresh tree, update index 3,
read `getHashPath(0)`.  Indices 3 and 0 diverge at bit 1 — above the
leaf level — yet the root-adjacent pair of `getHashPath(0)` changes (its
right slot becomes the new right-subtree digest), so the hash path of
the sibling index is not unchanged. -/
theorem C6_counterexample :
    ((new1 toyHasher emptyStore [7] 2).map fun a => getHashPath1 a.2.1 a.1 0)
      = some (some [(List.replicate 32 0, List.replicate 32 0),
                    (List.replicate 32 0, List.replicate 32 0)]) ∧
    ((new1 toyHasher emptyStore [7] 2).bind fun a =>
      (updateElement1 toyHasher a.2.1 [7] a.1 3 (List.replicate 64 1)).map fun b =>
        getHashPath1 b.2.2.1 b.2.1 0)
      = some (some [(List.replicate 32 0, List.replicate 32 0),
                    (List.replicate 32 0,
                     List.replicate 16 0 ++ List.replicate 16 15)]) ∧
    (some [(List.replicate 32 0, List.replicate 32 0),
           (List.replicate 32 0, List.replicate 32 0)] : Option (List (Bytes × Bytes)))
      ≠ some [(List.replicate 32 0, List.replicate 32 0),
              (List.replicate 32 0, List.replicate 16 0 ++ List.replicate 16 15)] := by
  refine ⟨by decide, by decide, by decide⟩

/-- C6 (amended): updating index `i` leaves unchanged every pair of
`getHashPath(j)` strictly below the divergence level — if the routes of
`i` and `j` agree on all bits above position `tt` (`1 ≤ tt`, divergence
above the leaf) and differ at bit `tt`, the first `tt` pairs of the
path (those inside `j`'s untouched subtree) are identical before and
after the update.  Pairs at and above the divergence are rebuilt along
the updated spine and do change in the slot on `i`'s side. -/
theorem C6_update_frame_below_divergence {H : Hasher} {s : Store} {name : Bytes} {t : MTree}
    (hg : GoodHasher H) (hv : validT H s t.root t.depth = true)
    (hd : 1 ≤ t.depth ∧ t.depth ≤ 32) (hn : name.length ≠ 32)
    (i j tt : Nat) (hi : i < 2 ^ t.depth) (hj : j < 2 ^ t.depth)
    (htt : 1 ≤ tt ∧ tt < t.depth)
    (hdiff : bitAt i tt ≠ bitAt j tt)
    (hagree : ∀ u, tt < u → u < t.depth → bitAt i u = bitAt j u)
    (value : Bytes) :
    ∃ rt t' s' log p q, updateElement1 H s name t i value = some (rt, t', s', log) ∧
      getHashPath1 s t j = some p ∧ getHashPath1 s' t' j = some q ∧
      q.take tt = p.take tt := by
  obtain ⟨nd, s1, log, p, q, hrec, hp, hq, htake⟩ :=
    updateRec1_frame hg i j value t.depth s t.root tt hv (by omega) hdiff hagree
  obtain ⟨nd'', s1'', log'', hrec'', hs1, hca1, hndlen, hvalid1, _, _⟩ :=
    updateRec1_spec hg i value t.depth s t.root hv
  rw [hrec] at hrec''
  simp only [Option.some.injEq, Prod.mk.injEq] at hrec''
  obtain ⟨he1, he2, he3⟩ := hrec''
  subst he1; subst he2; subst he3
  have hrootlen : t.root.length = 32 := by
    obtain ⟨r, hr⟩ : ∃ r, t.depth = r + 1 := ⟨t.depth - 1, by omega⟩
    rw [hr] at hv
    exact validT_key_length hg hv
  have hstep : updateElement1 H s name t i value =
      some (nd, ⟨nd, t.depth⟩, s1.put name (metaBytes nd t.depth), log) := by
    simp only [updateElement1, hrec, Option.map_some', copyAt_same_length hndlen hrootlen]
  have hlift := (validT_pres (@presCA_put_name H s1 name (metaBytes nd t.depth) hg hn)
    t.depth nd hvalid1).2 j
  refine ⟨nd, ⟨nd, t.depth⟩, s1.put name (metaBytes nd t.depth), log, p, q, hstep, hp, ?_,
    htake⟩
  rw [getHashPath1]
  exact hlift.trans hq

/-- Witness for the amended C6: depth-2 fresh tree, update index 3,
observe index 0 (divergence at bit 1). -/
theorem C6_update_frame_witness :
    GoodHasher toyHasher ∧
    (validT toyHasher (putList emptyStore (freshPuts toyHasher 2)) (specD toyHasher 2) 2
      = true) ∧
    (1 ≤ 2 ∧ 2 ≤ 32) ∧ (List.length [7] ≠ 32) ∧ (3 < 2 ^ 2) ∧ (0 < 2 ^ 2) ∧
    (1 ≤ 1 ∧ 1 < 2) ∧ (bitAt 3 1 ≠ bitAt 0 1) ∧
    (∀ u, 1 < u → u < 2 → bitAt 3 u = bitAt 0 u) ∧
    (∃ rt t' s' log p q,
      updateElement1 toyHasher (putList emptyStore (freshPuts toyHasher 2)) [7]
        ⟨specD toyHasher 2, 2⟩ 3 (List.replicate 64 1) = some (rt, t', s', log) ∧
      getHashPath1 (putList emptyStore (freshPuts toyHasher 2)) ⟨specD toyHasher 2, 2⟩ 0
        = some p ∧
      getHashPath1 s' t' 0 = some q ∧ q.take 1 = p.take 1) :=
  ⟨toy_good, by decide, ⟨by decide, by decide⟩, by decide, by decide, by decide,
   ⟨by decide, by decide⟩, by decide, fun u h1 h2 => absurd h2 (by omega),
   @C6_update_frame_below_divergence toyHasher (putList emptyStore (freshPuts toyHasher 2))
     [7] ⟨specD toyHasher 2, 2⟩ toy_good (by decide) ⟨by decide, by decide⟩ (by decide)
     3 0 1 (by decide) (by decide) ⟨by decide, by decide⟩ (by decide)
     (fun u h1 h2 => absurd (show u < 2 from h2) (by omega)) (List.replicate 64 1)⟩

/-! ## Claim C3: restoration round-trip -/

/-- One `updateElement` preserves the round-trip invariant: tree valid in
the store, 32-byte root, and the current metadata record persisted under
the name. -/
theorem updateElement1_inv {H : Hasher} {s : Store} {name : Bytes} {t : MTree}
    (hg : GoodHasher H) (hn : name.length ≠ 32)
    (hv : validT H s t.root t.depth = true) (hrl : t.root.length = 32)
    (i : Nat) (value : Bytes) :
    ∃ rt s' log, updateElement1 H s name t i value = some (rt, ⟨rt, t.depth⟩, s', log) ∧
      validT H s' rt t.depth = true ∧ rt.length = 32 ∧
      s' name = some (metaBytes rt t.depth) := by
  obtain ⟨nd, s1, log, hrec, hs1, hca, hndlen, hvalid, _, _⟩ :=
    updateRec1_spec hg i value t.depth s t.root hv
  have hstep : updateElement1 H s name t i value =
      some (nd, ⟨nd, t.depth⟩, s1.put name (metaBytes nd t.depth), log) := by
    simp only [updateElement1, hrec, Option.map_some', copyAt_same_length hndlen hrl]
  refine ⟨nd, s1.put name (metaBytes nd t.depth), log, hstep, ?_, hndlen, Store.put_same _ _ _⟩
  exact (validT_pres (@presCA_put_name H s1 name (metaBytes nd t.depth) hg hn)
    t.depth nd hvalid).1

/-- Any sequence of updates succeeds and preserves the invariant. -/
theorem runUpdates_inv {H : Hasher} (hg : GoodHasher H) {name : Bytes} (hn : name.length ≠ 32) :
    ∀ (us : List (Nat × Bytes)) (t : MTree) (s : Store),
      validT H s t.root t.depth = true → t.root.length = 32 →
      s name = some (metaBytes t.root t.depth) →
      ∃ t' s', runUpdates H name (t, s) us = some (t', s') ∧
        t'.depth = t.depth ∧ t'.root.length = 32 ∧
        validT H s' t'.root t'.depth = true ∧
        s' name = some (metaBytes t'.root t'.depth) := by
  intro us
  induction us with
  | nil =>
    intro t s hv hrl hm
    exact ⟨t, s, rfl, rfl, hrl, hv, hm⟩
  | cons u us ih =>
    intro t s hv hrl hm
    obtain ⟨rt, s', log, hstep, hv', hrl', hm'⟩ := updateElement1_inv hg hn hv hrl u.1 u.2
    obtain ⟨t', s'', hrun, hd', hrl'', hv'', hm''⟩ := ih ⟨rt, t.depth⟩ s' hv' hrl' hm'
    refine ⟨t', s'', ?_, hd', hrl'', hv'', hm''⟩
    rw [runUpdates, hstep, Option.some_bind]
    exact hrun

/-- C3: construct a fresh tree under a name, run any sequence of updates
(each persisting the 40-byte record `root || depth_le32 || 0*4`), then
call `MerkleTree.new` again on the same store and name with an arbitrary
depth argument: the restored tree has the same root and the same hash
path at every in-range index, and the store is untouched by the
restoration. -/
theorem C3_restore_roundtrip {H : Hasher} {s₀ : Store} {name : Bytes} {depth : Nat}
    (hg : GoodHasher H) (hn : name.length ≠ 32) (hd : 1 ≤ depth ∧ depth ≤ 32)
    (h₀ : s₀ name = none) (us : List (Nat × Bytes)) (d' : Nat) :
    ∃ t₀ s₁, new1 H s₀ name depth = some (t₀, s₁, freshPuts H depth, [name]) ∧
      ∃ tn sn, runUpdates H name (t₀, s₁) us = some (tn, sn) ∧
        sn name = some (tn.root ++ le4 tn.depth ++ List.replicate 4 0) ∧
        (tn.root ++ le4 tn.depth ++ List.replicate 4 0).length = 40 ∧
        ∃ t', new1 H sn name d' = some (t', sn, [], [name]) ∧
          getRoot t' = getRoot tn ∧
          ∀ i2, i2 < 2 ^ depth → getHashPath1 sn t' i2 = getHashPath1 sn tn i2 := by
  have hroot0 : (specD H depth).length = 32 := specD_length hg depth
  have hnew0 : new1 H s₀ name depth =
      some (⟨specD H depth, depth⟩,
        (putList s₀ (freshPuts H depth)).put name (metaBytes (specD H depth) depth),
        freshPuts H depth, [name]) := by
    simp only [new1, h₀, ctor1_fresh hg hd, Option.map_some']
  have hv₁ : validT H
      ((putList s₀ (freshPuts H depth)).put name (metaBytes (specD H depth) depth))
      (specD H depth) depth = true := by
    refine (validT_pres (@presCA_put_name H (putList s₀ (freshPuts H depth)) name
      (metaBytes (specD H depth) depth) hg hn) depth _ ?_).1
    exact freshPuts_valid hg s₀ depth (le_refl _)
  obtain ⟨tn, sn, hrun, hdep, hrl, hv', hm'⟩ :=
    runUpdates_inv hg hn us ⟨specD H depth, depth⟩
      ((putList s₀ (freshPuts H depth)).put name (metaBytes (specD H depth) depth))
      hv₁ hroot0 (Store.put_same _ _ _)
  have hdepn : tn.depth = depth := hdep
  have hmeta : metaBytes tn.root tn.depth = tn.root ++ le4 tn.depth ++ List.replicate 4 0 :=
    metaBytes_eq hrl tn.depth
  have hread : readLE32 (metaBytes tn.root tn.depth) 32 = tn.depth := by
    rw [hmeta]
    exact readLE32_meta hrl (by omega)
  have hrestore : new1 H sn name d' = some (tn, sn, [], [name]) := by
    simp only [new1, hm', ctor1, hread, if_pos (by omega : 1 ≤ tn.depth ∧ tn.depth ≤ 32),
      Option.map_some', metaBytes_take hrl, copyAt_full hrl]
    rfl
  refine ⟨⟨specD H depth, depth⟩,
    (putList s₀ (freshPuts H depth)).put name (metaBytes (specD H depth) depth),
    hnew0, tn, sn, hrun, by rw [← hmeta]; exact hm', by simp [le4, hrl], tn, hrestore,
    rfl, fun i2 _ => rfl⟩

/-- Witness for C3: depth 1, one update, restore with caller depth 9. -/
theorem C3_restore_roundtrip_witness :
    GoodHasher toyHasher ∧ (List.length [7] ≠ 32) ∧ (1 ≤ 1 ∧ 1 ≤ 32) ∧
    (emptyStore [7] = none) ∧
    (∃ t₀ s₁, new1 toyHasher emptyStore [7] 1 = some (t₀, s₁, freshPuts toyHasher 1, [[7]]) ∧
      ∃ tn sn, runUpdates toyHasher [7] (t₀, s₁) [(0, List.replicate 64 1)] = some (tn, sn) ∧
        sn [7] = some (tn.root ++ le4 tn.depth ++ List.replicate 4 0) ∧
        (tn.root ++ le4 tn.depth ++ List.replicate 4 0).length = 40 ∧
        ∃ t', new1 toyHasher sn [7] 9 = some (t', sn, [], [[7]]) ∧
          getRoot t' = getRoot tn ∧
          ∀ i2, i2 < 2 ^ 1 → getHashPath1 sn t' i2 = getHashPath1 sn tn i2) :=
  ⟨toy_good, by decide, ⟨by decide, by decide⟩, rfl,
    @C3_restore_roundtrip toyHasher emptyStore [7] 1 toy_good (by decide)
      ⟨by decide, by decide⟩ rfl [(0, List.replicate 64 1)] 9⟩
